import Mathlib

/-!
# Verification of the mysql-processor export/import core

A shallow embedding, in Lean 4, of the pure core of `src/dump.py`,
`src/restore.py` and `src/main.py` of the `mysql-processor` repository:

* the streaming INSERT-line filter `MyDump._iter_insert_lines`,
* the large-file splitter `MyDump._split_large_file`,
* the small-file rewriter `MyDump._add_header_footer_to_file`,
* the per-table export worker `MyDump._export_table_data`,
* the per-database orchestration (`MyDump.export_db`,
  `main.process_single_database`, `MyRestore.restore_db`).

Byte strings are `List Nat` (each element a byte value), Python `str`
values are `List Nat` of Unicode code points.  File contents and the
file system are explicit values; external subprocess outcomes are
parameters.  Python's strict UTF-8 codec is embedded in full
(`utf8Decode` / `utf8Encode`); `str.upper` is modelled on the ASCII
range (the only range relevant to the `INSERT INTO` prefix test).
-/

set_option maxRecDepth 8192

namespace MysqlProcessor

/-! ## Whitespace, stripping, upper-casing

`bytes.strip()` strips exactly the six ASCII whitespace bytes.
`str.strip()` strips the Unicode whitespace code points. -/

/-- The bytes stripped by Python's `bytes.strip()`:
tab, newline, vertical tab, form feed, carriage return, space. -/
def isWsByte (b : Nat) : Bool :=
  b = 9 || b = 10 || b = 11 || b = 12 || b = 13 || b = 32

/-- The code points stripped by Python's `str.strip()` (Unicode whitespace). -/
def isWsCp (c : Nat) : Bool :=
  isWsByte c || (28 ≤ c && c ≤ 31) || c = 0x85 || c = 0xa0 || c = 0x1680 ||
  (0x2000 ≤ c && c ≤ 0x200a) || c = 0x2028 || c = 0x2029 || c = 0x202f ||
  c = 0x205f || c = 0x3000

/-- Strip elements satisfying `p` from both ends of a list
(Python's `strip()` on `bytes` or `str`). -/
def stripList (p : Nat → Bool) (l : List Nat) : List Nat :=
  ((l.dropWhile p).reverse.dropWhile p).reverse

/-- Model of `bytes.strip()`. -/
def stripBytes (l : List Nat) : List Nat := stripList isWsByte l

/-- Model of `str.strip()`. -/
def stripCps (l : List Nat) : List Nat := stripList isWsCp l

/-- Model of `str.upper()` on one code point, modelled on the ASCII range
(`a`-`z` map to `A`-`Z`); the only prefix compared against is ASCII. -/
def cpUpper (c : Nat) : Nat := if 97 ≤ c ∧ c ≤ 122 then c - 32 else c

/-- The code points of the literal `"INSERT INTO"`. -/
def insertIntoCps : List Nat := [73, 78, 83, 69, 82, 84, 32, 73, 78, 84, 79]

/-- Model of `line.upper().startswith('INSERT INTO')` (dump.py lines 597/612). -/
def isInsertLine (cps : List Nat) : Bool :=
  insertIntoCps.isPrefixOf (cps.map cpUpper)

/-! ## Splitting a byte string on the newline byte -/

/-- Python's `buffer.split(b'\n')`: the segments between newline bytes
(`n` separators give `n+1` segments, empties included). -/
def splitNl : List Nat → List (List Nat)
  | [] => [[]]
  | b :: rest =>
    if b = 10 then [] :: splitNl rest
    else
      match splitNl rest with
      | [] => [[b]]
      | seg :: segs => (b :: seg) :: segs

/-- The complete lines of a buffer (`buffer.split(b'\n')[:-1]`) paired with
the trailing partial line (`buffer.split(b'\n')[-1]`). -/
def splitLast : List Nat → List (List Nat) × List Nat
  | [] => ([], [])
  | b :: rest =>
    let (segs, lst) := splitLast rest
    if b = 10 then ([] :: segs, lst)
    else
      match segs with
      | [] => ([], b :: lst)
      | s :: ss => ((b :: s) :: ss, lst)

/-- Model of `buffer.split(b'\n')[:-1]`: the complete lines of the buffer. -/
def nlSegs (l : List Nat) : List (List Nat) := (splitLast l).1

/-- Model of `buffer.split(b'\n')[-1]`: the retained incomplete line. -/
def nlRest (l : List Nat) : List Nat := (splitLast l).2

/-! ## Python's strict UTF-8 codec -/

/-- A UTF-8 continuation byte. -/
def isCont (b : Nat) : Bool := 0x80 ≤ b && b ≤ 0xBF

/-- Validity of a two-byte sequence: lead in `C2..DF` (leads `C0`/`C1`
would be overlong and are invalid start bytes, like `80..BF`),
one continuation byte. -/
def twoOk (b b1 : Nat) : Bool := 0xC2 ≤ b && isCont b1

/-- Validity of a three-byte sequence: the second byte additionally
excludes overlong encodings for lead `0xE0` and surrogates for lead
`0xED`. -/
def threeOk (b b1 b2 : Nat) : Bool :=
  (if b = 0xE0 then 0xA0 ≤ b1 && b1 ≤ 0xBF
   else if b = 0xED then 0x80 ≤ b1 && b1 ≤ 0x9F
   else isCont b1) && isCont b2

/-- Validity of a four-byte sequence: lead at most `0xF4`; the second byte
additionally excludes overlong encodings for lead `0xF0` and values above
`U+10FFFF` for lead `0xF4`. -/
def fourOk (b b1 b2 b3 : Nat) : Bool :=
  b ≤ 0xF4 &&
  (if b = 0xF0 then 0x90 ≤ b1 && b1 ≤ 0xBF
   else if b = 0xF4 then 0x80 ≤ b1 && b1 ≤ 0x8F
   else isCont b1) && isCont b2 && isCont b3

/-- Code point of a two-byte sequence. -/
def cp2 (b b1 : Nat) : Nat := (b - 0xC0) * 64 + (b1 - 0x80)

/-- Code point of a three-byte sequence. -/
def cp3 (b b1 b2 : Nat) : Nat :=
  (b - 0xE0) * 4096 + (b1 - 0x80) * 64 + (b2 - 0x80)

/-- Code point of a four-byte sequence. -/
def cp4 (b b1 b2 b3 : Nat) : Nat :=
  (b - 0xF0) * 262144 + (b1 - 0x80) * 4096 + (b2 - 0x80) * 64 + (b3 - 0x80)

/-- Python's strict `bytes.decode('utf-8')`: `some` of the code points on
valid input, `none` where Python raises `UnicodeDecodeError` (invalid
start byte, invalid or missing continuation bytes, overlong encodings,
surrogates, values above `U+10FFFF`, truncated final sequence).  The
match exposes up to four bytes so that every branch of the standard
decoding table is a top-level case. -/
def utf8Decode : List Nat → Option (List Nat)
  | [] => some []
  | [b] => if b < 0x80 then some [b] else none
  | [b, b1] =>
    if b < 0x80 then (utf8Decode [b1]).map (b :: ·)
    else if b ≤ 0xDF then if twoOk b b1 then some [cp2 b b1] else none
    else none
  | [b, b1, b2] =>
    if b < 0x80 then (utf8Decode [b1, b2]).map (b :: ·)
    else if b ≤ 0xDF then
      if twoOk b b1 then (utf8Decode [b2]).map (cp2 b b1 :: ·) else none
    else if b ≤ 0xEF then
      if threeOk b b1 b2 then some [cp3 b b1 b2] else none
    else none
  | b :: b1 :: b2 :: b3 :: rest =>
    if b < 0x80 then (utf8Decode (b1 :: b2 :: b3 :: rest)).map (b :: ·)
    else if b ≤ 0xDF then
      if twoOk b b1 then (utf8Decode (b2 :: b3 :: rest)).map (cp2 b b1 :: ·)
      else none
    else if b ≤ 0xEF then
      if threeOk b b1 b2 then (utf8Decode (b3 :: rest)).map (cp3 b b1 b2 :: ·)
      else none
    else if fourOk b b1 b2 b3 then
      (utf8Decode rest).map (cp4 b b1 b2 b3 :: ·)
    else none

/-- Model of `bytes.decode('latin-1')`: never fails on bytes; each byte below 256 is
its own code point.  `none` models the impossible case of an element that is
not a byte. -/
def latin1Decode (bs : List Nat) : Option (List Nat) :=
  if bs.all (· < 256) then some bs else none

/-- The decode step of dump.py lines 593-596 / 608-611
(`try: utf-8 except UnicodeDecodeError: latin-1`), as a total function:
on UTF-8 failure the bytes are taken as their own code points (Latin-1). -/
def pyDecodeBytes (bs : List Nat) : List Nat := (utf8Decode bs).getD bs

/-- UTF-8 encoding of one code point (valid for non-surrogate scalars). -/
def utf8EncodeChar (c : Nat) : List Nat :=
  if c < 0x80 then [c]
  else if c < 0x800 then [0xC0 + c / 64, 0x80 + c % 64]
  else if c < 0x10000 then [0xE0 + c / 4096, 0x80 + c / 64 % 64, 0x80 + c % 64]
  else [0xF0 + c / 262144, 0x80 + c / 4096 % 64, 0x80 + c / 64 % 64, 0x80 + c % 64]

/-- UTF-8 encoding of a code-point string. -/
def utf8Encode : List Nat → List Nat
  | [] => []
  | c :: cs => utf8EncodeChar c ++ utf8Encode cs

/-- A Unicode scalar value: below `U+110000` and not a surrogate. -/
def ValidScalar (c : Nat) : Prop := c < 0x110000 ∧ ¬(0xD800 ≤ c ∧ c < 0xE000)

instance : DecidablePred ValidScalar := fun _ => instDecidableAnd

/-- Python's `str.encode('utf-8')`: `none` where Python raises
`UnicodeEncodeError` (surrogates; values above `U+10FFFF` cannot occur in a
Python `str` and are also mapped to `none`). -/
def pyEncodeUtf8 (cs : List Nat) : Option (List Nat) :=
  if cs.all (fun c => decide (ValidScalar c)) then some (utf8Encode cs) else none

/-- Python's `str.encode('latin-1')`: fails above code point 255. -/
def pyEncodeLatin1 (cs : List Nat) : Option (List Nat) :=
  if cs.all (· < 256) then some cs else none

/-! ## The streaming INSERT-line filter (`MyDump._iter_insert_lines`) -/

/-- Processing of one complete line in the main loop
(dump.py lines 605-613): strip the bytes, skip if empty, decode with
fallback, strip the string, yield iff it upper-cases to an
`INSERT INTO` prefix. -/
def mainLineF (bs : List Nat) : Option (List Nat) :=
  let sb := stripBytes bs
  if sb = [] then none
  else
    let line := stripCps (pyDecodeBytes sb)
    if isInsertLine line then some line else none

/-- Processing of one line of the final buffer at end of stream
(dump.py lines 590-598): test `line_bytes.strip()` for emptiness but decode
the unstripped bytes. -/
def eofLineF (bs : List Nat) : Option (List Nat) :=
  if stripBytes bs = [] then none
  else
    let line := stripCps (pyDecodeBytes bs)
    if isInsertLine line then some line else none

/-- The chunked reading loop of `_iter_insert_lines` (dump.py lines 583-613):
append the chunk to the carry-over buffer, split on newlines, emit the
complete lines through `mainLineF`, retain the last segment; at end of
stream (no further chunk, or an empty read) split and process the remaining
buffer with `eofLineF` if it is non-empty. -/
def iterChunks (buffer : List Nat) : List (List Nat) → List (List Nat)
  | [] => if buffer = [] then [] else (splitNl buffer).filterMap eofLineF
  | c :: cs =>
    if c = [] then
      if buffer = [] then [] else (splitNl buffer).filterMap eofLineF
    else
      let whole := buffer ++ c
      (nlSegs whole).filterMap mainLineF ++ iterChunks (nlRest whole) cs

/-- Worker for `chunksOf`, structurally recursive on a fuel bound on the
number of reads (any fuel at least the byte count gives the full
chunking). -/
def chunksOfAux (n : Nat) : Nat → List Nat → List (List Nat)
  | _, [] => []
  | 0, _ :: _ => []
  | fuel + 1, b :: rest =>
    (b :: rest).take n :: chunksOfAux n fuel ((b :: rest).drop n)

/-- Cut a byte string into successive chunks of `n` bytes (the reads
delivered by `f.read(n)` until end of file). -/
def chunksOf (n : Nat) (l : List Nat) : List (List Nat) :=
  if n = 0 then [] else chunksOfAux n l.length l

/-- Model of `MyDump._iter_insert_lines` on a whole file: the 64 KiB read loop. -/
def iterInsertLines (file : List Nat) : List (List Nat) :=
  iterChunks [] (chunksOf 65536 file)

/-- The specification-side line predicate: decode the line, trim it, and
yield it iff it case-insensitively begins with `INSERT INTO`. -/
def specLine (bs : List Nat) : Option (List Nat) :=
  let line := stripCps (pyDecodeBytes bs)
  if isInsertLine line then some line else none

/-- The specification-side filter: the trimmed data-statement lines of the
file, in file order, independent of any chunking. -/
def filterSpec (file : List Nat) : List (List Nat) :=
  (splitNl file).filterMap specLine

/-! ## The exception-faithful pipeline

The functions above are total: the Latin-1 fallback is modelled as the
identity on byte values.  The `E`-suffixed functions below keep every
decode failure visible as `none`, exactly where the Python code would
raise: `utf-8` is attempted first, and `latin-1` is attempted on failure
(and itself fails only on a non-byte element, which cannot occur). -/

/-- Decode with fallback, failures visible (dump.py lines 593-596). -/
def pyDecodeBytesE (bs : List Nat) : Option (List Nat) :=
  match utf8Decode bs with
  | some cs => some cs
  | none => latin1Decode bs

/-- Model of `mainLineF` with decode failures visible. -/
def mainLineE (bs : List Nat) : Option (Option (List Nat)) :=
  let sb := stripBytes bs
  if sb = [] then some none
  else
    (pyDecodeBytesE sb).map fun cs =>
      let line := stripCps cs
      if isInsertLine line then some line else none

/-- Model of `eofLineF` with decode failures visible. -/
def eofLineE (bs : List Nat) : Option (Option (List Nat)) :=
  if stripBytes bs = [] then some none
  else
    (pyDecodeBytesE bs).map fun cs =>
      let line := stripCps cs
      if isInsertLine line then some line else none

/-- Run a failure-aware line processor over a list of lines, propagating
the first failure. -/
def seqFilterMap (f : List Nat → Option (Option (List Nat))) :
    List (List Nat) → Option (List (List Nat))
  | [] => some []
  | s :: ss =>
    match f s, seqFilterMap f ss with
    | some r, some rest => some (r.toList ++ rest)
    | _, _ => none

/-- Model of `iterChunks` with decode failures visible. -/
def iterChunksE (buffer : List Nat) : List (List Nat) → Option (List (List Nat))
  | [] => if buffer = [] then some [] else seqFilterMap eofLineE (splitNl buffer)
  | c :: cs =>
    if c = [] then
      if buffer = [] then some [] else seqFilterMap eofLineE (splitNl buffer)
    else
      let whole := buffer ++ c
      match seqFilterMap mainLineE (nlSegs whole), iterChunksE (nlRest whole) cs with
      | some a, some b => some (a ++ b)
      | _, _ => none

/-- Model of `MyDump._iter_insert_lines` with decode failures visible. -/
def iterInsertLinesE (file : List Nat) : Option (List (List Nat)) :=
  iterChunksE [] (chunksOf 65536 file)

/-! ## The SQL envelope constants (dump.py lines 17-32) -/

/-- Code points of a string literal. -/
def strCps (s : String) : List Nat := s.data.map Char.toNat

/-- Model of `header_lines` (dump.py lines 17-23). -/
def headerLines : List (List Nat) :=
  [strCps "set foreign_key_checks = 0;",
   strCps "set unique_checks = 0;",
   strCps "set autocommit=0;",
   strCps "SET SESSION sort_buffer_size = 32*1024*1024;",
   strCps "START TRANSACTION;"]

/-- Model of `commit_lines` (dump.py lines 24-27). -/
def commitLines : List (List Nat) :=
  [strCps "commit;", strCps "START TRANSACTION;"]

/-- Model of `footer_lines` (dump.py lines 28-32). -/
def footerLines : List (List Nat) :=
  [strCps "commit;",
   strCps "set foreign_key_checks = 1;",
   strCps "set unique_checks = 1;"]

/-- Model of `'\n'.join(lines) + '\n'` at the code-point level. -/
def joinNlTerm (ls : List (List Nat)) : List Nat :=
  List.intercalate [10] ls ++ [10]

/-- Code points of the header block. -/
def headerCps : List Nat := joinNlTerm headerLines

/-- Code points of the commit-checkpoint block. -/
def commitCps : List Nat := joinNlTerm commitLines

/-- Code points of the footer block. -/
def footerCps : List Nat := joinNlTerm footerLines

/-- Model of `header_bytes` (dump.py line 476); the constants are ASCII, so
`.encode('utf-8')` cannot fail. -/
def headerBytes : List Nat := utf8Encode headerCps

/-- Model of `footer_bytes` (dump.py line 477). -/
def footerBytes : List Nat := utf8Encode footerCps

/-- Model of `commit_bytes` (dump.py line 478). -/
def commitBytes : List Nat := utf8Encode commitCps

/-! ## The large-file splitter (`MyDump._split_large_file`) -/

/-- Model of `if not line.endswith('\n'): line += '\n'` (dump.py lines 497-498). -/
def withNl (l : List Nat) : List Nat :=
  if l.getLast? = some 10 then l else l ++ [10]

/-- Model of `byte_line` (dump.py lines 499-502): encode the terminated line as
UTF-8, falling back to Latin-1 on `UnicodeEncodeError`.  The final `[]`
default models the impossible case of both encodings failing. -/
def lineToBytes (l : List Nat) : List Nat :=
  match pyEncodeUtf8 (withNl l) with
  | some bs => bs
  | none => (pyEncodeLatin1 (withNl l)).getD []

/-- Model of `effective_max_bytes` (dump.py line 484): the accumulation budget of a
part, as a (possibly negative) integer. -/
def effectiveMax (maxSize : Nat) : Int :=
  (maxSize : Int) - headerBytes.length - footerBytes.length - commitBytes.length

/-- The loop state of `_split_large_file`: part contents written so far,
`current_lines`, `current_size`, `insert_count`. -/
structure SplitSt where
  parts : List (List Nat)
  curChunks : List (List Nat)
  curSize : Nat
  insertCount : Nat

/-- The byte content of one written part file
(dump.py lines 510-514 / 535-539): header, buffered chunks, footer. -/
def mkPart (chunks : List (List Nat)) : List Nat :=
  headerBytes ++ chunks.flatten ++ footerBytes

/-- One iteration of the splitter loop (dump.py lines 495-530): flush the
current part when the next line would exceed the budget, append the line,
and append a commit-checkpoint block after every 50th accumulated line. -/
def splitStep (eff : Int) (st : SplitSt) (l : List Nat) : SplitSt :=
  let byteLine := lineToBytes l
  let lineSize := byteLine.length
  let st1 :=
    if (st.curSize + lineSize : Int) > eff ∧ st.curChunks ≠ [] then
      { parts := st.parts ++ [mkPart st.curChunks], curChunks := [],
        curSize := 0, insertCount := 0 }
    else st
  let st2 : SplitSt :=
    { st1 with curChunks := st1.curChunks ++ [byteLine],
               curSize := st1.curSize + lineSize,
               insertCount := st1.insertCount + 1 }
  if st2.insertCount % 50 = 0 ∧ st2.curChunks ≠ [] then
    { st2 with curChunks := st2.curChunks ++ [commitBytes],
               curSize := st2.curSize + commitBytes.length }
  else st2

/-- Model of `MyDump._split_large_file` (dump.py lines 449-546) as a function from
the source file's bytes to the ordered list of part-file contents: stream
the filtered INSERT lines, fold the splitter loop, and flush the final
buffered part. -/
def splitLargeFile (fileBytes : List Nat) (maxSize : Nat) : List (List Nat) :=
  let lines := iterInsertLines fileBytes
  let final := lines.foldl (splitStep (effectiveMax maxSize)) ⟨[], [], 0, 0⟩
  if final.curChunks ≠ [] then final.parts ++ [mkPart final.curChunks]
  else final.parts

/-- The shape of every line the filter yields: already stripped, made of
Unicode scalar values, carrying the `INSERT INTO` prefix, and free of
newline code points. -/
def GoodLine (l : List Nat) : Prop :=
  stripCps l = l ∧ (∀ c ∈ l, ValidScalar c) ∧ isInsertLine l = true ∧ 10 ∉ l

/-- The relation between the data lines assigned to a part and the byte
chunks buffered for it: chunks are the encoded terminated lines in order,
with commit-checkpoint blocks interspersed. -/
inductive PartChunks : List (List Nat) → List (List Nat) → Prop
  | nil : PartChunks [] []
  | line (l : List Nat) {ds cs : List (List Nat)} :
      PartChunks ds cs → PartChunks (ds ++ [l]) (cs ++ [lineToBytes l])
  | commit {ds cs : List (List Nat)} :
      PartChunks ds cs → PartChunks ds (cs ++ [commitBytes])

/-- Round-trip invariant of the splitter loop: the lines consumed so far
are exactly the lines recoverable from the parts written so far followed
by the lines buffered in the current part. -/
def SplitDataInv (processed : List (List Nat)) (st : SplitSt) : Prop :=
  ∃ cds, processed = st.parts.flatMap filterSpec ++ cds ∧
    PartChunks cds st.curChunks ∧ (∀ x ∈ cds, GoodLine x) ∧
    (st.curChunks = [] → cds = [])

/-- Size invariant of the splitter loop: the byte counter matches the
buffer, the line counter is zero when the buffer is empty, a non-empty
buffer is within budget unless it is a single oversized line, and every
part written so far is within the threshold unless it carries a single
oversized line as its sole data content. -/
def SplitSizeInv (maxSize : Nat) (allLines : List (List Nat)) (st : SplitSt) : Prop :=
  st.curSize = st.curChunks.flatten.length ∧
  (st.curChunks = [] → st.insertCount = 0) ∧
  (st.curChunks ≠ [] →
    ((st.curSize : Int) ≤ effectiveMax maxSize + commitBytes.length ∨
     ∃ l0 ∈ allLines, st.curChunks = [lineToBytes l0] ∧
       ((lineToBytes l0).length : Int) > effectiveMax maxSize)) ∧
  (∀ p ∈ st.parts, p.length ≤ maxSize ∨
    ∃ l0 ∈ allLines, p = mkPart [lineToBytes l0] ∧
      ((lineToBytes l0).length : Int) > effectiveMax maxSize)

/-! ## The small-file rewriter (`MyDump._add_header_footer_to_file`) -/

/-- The body written by the rewriter loop (dump.py lines 651-656):
`'\n' + line` for each collected INSERT line, with a commit-checkpoint
block after every 50th line except the last. -/
def hfLoop (total : Nat) (i : Nat) : List (List Nat) → List Nat
  | [] => []
  | l :: ls =>
    [10] ++ l ++
      (if (i + 1) % 50 = 0 ∧ (i + 1) < total then [10] ++ commitCps else []) ++
      hfLoop total (i + 1) ls

/-- The full rewritten content, at the code-point level
(dump.py lines 636-658): header, the INSERT lines of the file with
periodic checkpoints, footer. -/
def rewriteCps (fb : List Nat) : List Nat :=
  let lines := iterInsertLines fb
  headerCps ++ hfLoop lines.length 0 lines ++ [10] ++ footerCps

/-- The rewritten file bytes (the file is opened in text mode with UTF-8
encoding); `none` where Python would raise while writing. -/
def rewriteBytesOpt (fb : List Nat) : Option (List Nat) :=
  pyEncodeUtf8 (rewriteCps fb)

/-! ## The per-table export worker (`MyDump._export_table_data`) -/

/-- The files a table-export run leaves behind: the table's single `.sql`
file, the interim `.tmp` file, and the `.partNNN.sql` files, in part
order. -/
structure TableFiles where
  main : Option (List Nat)
  tmp : Option (List Nat)
  parts : List (List Nat)
  deriving DecidableEq

/-- The result dict of `_export_table_data` (duration omitted; the size is
kept in bytes rather than floating-point megabytes). -/
structure TableExportResult where
  success : Bool
  sizeBytes : Nat
  error : Option String
  deriving DecidableEq

/-- Model of `str(RuntimeError(f"表数据导出失败，exit code: {exit_code}"))`
(dump.py line 361): the message stored in the result's error field. -/
def exportErrorMsg (exitCode : Int) : String :=
  "表数据导出失败，exit code: " ++ toString exitCode

/-- Model of `MyDump._export_table_data` (dump.py lines 288-415) after the dump
subprocess: `subOk`/`exitCode`/`output` are the subprocess outcome,
`fileAfter` the output file's bytes (or `none` if the redirect produced no
file).  On failure the partial file is deleted and the captured `output`
is not used in the error message.  On success: a file with no INSERT line
is deleted (empty table); a file above the threshold is renamed to `.tmp`,
split, and the `.tmp` removed; otherwise the file is rewritten with the
header/footer envelope. -/
def exportTableDataModel (subOk : Bool) (exitCode : Int) (output : List String)
    (fileAfter : Option (List Nat)) (threshold : Nat) :
    TableExportResult × TableFiles :=
  if !subOk then
    ({ success := false, sizeBytes := 0, error := some (exportErrorMsg exitCode) },
     { main := none, tmp := none, parts := [] })
  else
    match fileAfter with
    | none =>
      ({ success := true, sizeBytes := 0, error := none },
       { main := none, tmp := none, parts := [] })
    | some fb =>
      if iterInsertLines fb = [] then
        ({ success := true, sizeBytes := 0, error := none },
         { main := none, tmp := none, parts := [] })
      else if threshold < fb.length then
        ({ success := true, sizeBytes := fb.length, error := none },
         { main := none, tmp := none, parts := splitLargeFile fb threshold })
      else
        ({ success := true, sizeBytes := fb.length, error := none },
         { main := some ((rewriteBytesOpt fb).getD fb), tmp := none, parts := [] })

/-! ## Rewrite atomicity (`MyDump._add_header_footer_to_file` on disk) -/

/-- The two files the rewriter touches: the original at `file_path` and
the temporary at `file_path + '.tmp'`. -/
structure FsState where
  orig : List Nat
  tmp : Option (List Nat)
  deriving DecidableEq

/-- Where an invocation of the rewriter can fail: while collecting the
INSERT lines (before the temp file exists), while writing the temp file
(leaving partial content), or at the final `os.replace`. -/
inductive RewriteFail
  | collect
  | write (written : List Nat)
  | replace
  deriving DecidableEq

/-- The except-branch of the rewriter (dump.py lines 664-669): remove the
temp file if it exists. -/
def exceptHandler (fs : FsState) : FsState :=
  if fs.tmp.isSome then { fs with tmp := none } else fs

/-- Model of `MyDump._add_header_footer_to_file` (dump.py lines 618-669) as a
transition on the two files, with an optional injected failure point: the
new content goes to the temp file and is installed over the original only
by the final `os.replace`. -/
def addHeaderFooterFs (fb : List Nat) (fail : Option RewriteFail) : Bool × FsState :=
  match fail with
  | some .collect => (false, exceptHandler ⟨fb, none⟩)
  | some (.write written) => (false, exceptHandler ⟨fb, some written⟩)
  | some .replace => (false, exceptHandler ⟨fb, rewriteBytesOpt fb⟩)
  | none =>
    match rewriteBytesOpt fb with
    | some c => (true, ⟨c, none⟩)
    | none => (false, exceptHandler ⟨fb, none⟩)

/-! ## Orchestration (`MyDump.export_db`, `main.process_single_database`) -/

/-- The phases of one database's migration. -/
inductive Phase
  | structureExport
  | dataExport
  | structureImport
  | dataImport
  deriving DecidableEq

/-- Terminal status of one database (main.py result dict `status`). -/
inductive DbStatus
  | success
  | failed
  deriving DecidableEq

/-- Model of `MyDump.export_db` (dump.py lines 72-108): structure export first —
on failure return `False` at once; an empty table list is a trivial
success; otherwise run the concurrent per-table data export and return
`success_count >= 0`.  The returned list records the phases invoked. -/
def exportDbModel (structureOk : Bool) (tables : List String)
    (tableOk : String → Bool) : Bool × List Phase :=
  if !structureOk then (false, [Phase.structureExport])
  else if tables.isEmpty then (true, [Phase.structureExport])
  else
    let successCount := (tables.filter tableOk).length
    (decide (0 ≤ (successCount : Int)), [Phase.structureExport, Phase.dataExport])

/-- Model of `main.process_single_database` (main.py lines 98-185): when
`doExport`, run the export and return a failed record at once if it
fails; then run the import (whose own phase trace is the abstract
`importResult`).  The returned list records the phases invoked. -/
def processSingleDatabaseModel (doExport : Bool) (structureOk : Bool)
    (tables : List String) (tableOk : String → Bool)
    (importResult : Bool × List Phase) : DbStatus × List Phase :=
  if doExport then
    let e := exportDbModel structureOk tables tableOk
    if !e.1 then (DbStatus.failed, e.2)
    else
      ((if importResult.1 then DbStatus.success else DbStatus.failed),
       e.2 ++ importResult.2)
  else
    ((if importResult.1 then DbStatus.success else DbStatus.failed),
     importResult.2)

/-- Everything `process_single_database` consumes for one database. -/
structure DbJob where
  name : String
  structureOk : Bool
  tables : List String
  tableOk : String → Bool
  importResult : Bool × List Phase

/-- Model of `main.main`'s database loop (main.py lines 211-226): every configured
database is processed, in order, regardless of earlier failures. -/
def processBatch (doExport : Bool) (jobs : List DbJob) : List (DbStatus × List Phase) :=
  jobs.map fun j =>
    processSingleDatabaseModel doExport j.structureOk j.tables j.tableOk j.importResult

/-! ## The restore side (`MyRestore.restore_db`) -/

/-- One import action performed against the target server. -/
inductive RAction
  | structureFile
  | dataFile (name : String)
  deriving DecidableEq

/-- Model of `sorted(...)` on file names: ascending insertion sort. -/
def sortStrings (l : List String) : List String :=
  l.insertionSort (· ≤ ·)

/-- Model of `MyRestore._collect_data_files` (restore.py lines 137-163): the `.sql`
files of the per-database folder, by sorted name, skipping empty files. -/
def collectDataFiles (names : List String) (size : String → Nat) : List String :=
  (sortStrings names).filter fun n => n.endsWith ".sql" && decide (0 < size n)

/-- Model of `MyRestore.restore_db` (restore.py lines 43-103): fail if the
structure file is missing; import the structure synchronously and fail if
that fails; succeed trivially if the data folder is missing or holds no
data files; otherwise import every collected data file concurrently and
succeed iff all of them succeed.  The returned list records the import
actions in submission order. -/
def restoreDbModel (structureExists : Bool) (structureImportOk : Bool)
    (dataFolderExists : Bool) (names : List String) (size : String → Nat)
    (fileOk : String → Bool) : Bool × List RAction :=
  if !structureExists then (false, [])
  else if !structureImportOk then (false, [RAction.structureFile])
  else if !dataFolderExists then (true, [RAction.structureFile])
  else
    let dataFiles := collectDataFiles names size
    if dataFiles.isEmpty then (true, [RAction.structureFile])
    else
      (decide ((dataFiles.filter fileOk).length = dataFiles.length),
       RAction.structureFile :: dataFiles.map RAction.dataFile)

/-! # Lemmas

## Newline splitting -/

theorem splitNl_ne_nil (l : List Nat) : splitNl l ≠ [] := by
  induction l with
  | nil => simp [splitNl]
  | cons b rest ih =>
    simp only [splitNl]
    split
    · simp
    · cases h : splitNl rest with
      | nil => exact absurd h ih
      | cons s ss => simp

theorem splitNl_no10 (l : List Nat) : ∀ s ∈ splitNl l, 10 ∉ s := by
  induction l with
  | nil =>
    intro s hs
    simp only [splitNl, List.mem_singleton] at hs
    simp [hs]
  | cons b rest ih =>
    intro s hs
    cases h : splitNl rest with
    | nil => exact absurd h (splitNl_ne_nil rest)
    | cons t ts =>
      by_cases hb : b = 10
      · simp only [splitNl, if_pos hb] at hs
        rcases List.mem_cons.mp hs with rfl | h1
        · simp
        · exact ih s h1
      · simp only [splitNl, if_neg hb, h] at hs
        rcases List.mem_cons.mp hs with rfl | h1
        · intro hmem
          rcases List.mem_cons.mp hmem with h2 | h2
          · exact hb h2.symm
          · exact ih t (h ▸ List.mem_cons_self t ts) h2
        · exact ih s (h ▸ List.mem_cons_of_mem t h1)

theorem mem_of_mem_splitNl {l s : List Nat} (hs : s ∈ splitNl l) :
    ∀ b ∈ s, b ∈ l := by
  induction l generalizing s with
  | nil =>
    simp only [splitNl, List.mem_singleton] at hs
    simp [hs]
  | cons c rest ih =>
    intro b hb
    cases h : splitNl rest with
    | nil => exact absurd h (splitNl_ne_nil rest)
    | cons t ts =>
      by_cases hc : c = 10
      · simp only [splitNl, if_pos hc] at hs
        rcases List.mem_cons.mp hs with rfl | h1
        · simp at hb
        · exact List.mem_cons_of_mem c (ih h1 b hb)
      · simp only [splitNl, if_neg hc, h] at hs
        rcases List.mem_cons.mp hs with rfl | h1
        · rcases List.mem_cons.mp hb with rfl | h2
          · exact List.mem_cons_self b rest
          · exact List.mem_cons_of_mem c (ih (h ▸ List.mem_cons_self t ts) b h2)
        · exact List.mem_cons_of_mem c (ih (h ▸ List.mem_cons_of_mem t h1) b hb)

theorem splitLast_decomp (l : List Nat) :
    ((nlSegs l).map (· ++ [10])).flatten ++ nlRest l = l := by
  induction l with
  | nil => simp [nlSegs, nlRest, splitLast]
  | cons b rest ih =>
    rcases hsl : splitLast rest with ⟨segs, lst⟩
    have ih' : ((segs.map (· ++ [10])).flatten) ++ lst = rest := by
      simpa [nlSegs, nlRest, hsl] using ih
    by_cases hb : b = 10
    · subst hb
      simp only [nlSegs, nlRest, splitLast, hsl, if_pos rfl]
      simpa using ih'
    · cases segs with
      | nil =>
        simp only [nlSegs, nlRest, splitLast, hsl, if_neg hb]
        simpa using congrArg (b :: ·) ih'
      | cons s ss =>
        simp only [nlSegs, nlRest, splitLast, hsl, if_neg hb]
        simp only [List.map_cons, List.flatten_cons, List.cons_append,
          List.append_assoc] at ih' ⊢
        exact congrArg (b :: ·) ih'

theorem nlSegs_no10 (l : List Nat) : ∀ s ∈ nlSegs l, 10 ∉ s := by
  induction l with
  | nil => simp [nlSegs, splitLast]
  | cons b rest ih =>
    intro s hs
    rcases hsl : splitLast rest with ⟨segs, lst⟩
    have ih' : ∀ s ∈ segs, 10 ∉ s := fun s h => ih s (by simpa [nlSegs, hsl] using h)
    by_cases hb : b = 10
    · simp only [nlSegs, splitLast, hsl, if_pos hb] at hs
      rcases List.mem_cons.mp hs with rfl | h1
      · simp
      · exact ih' s h1
    · cases segs with
      | nil => simp [nlSegs, splitLast, hsl, if_neg hb] at hs
      | cons t ts =>
        simp only [nlSegs, splitLast, hsl, if_neg hb] at hs
        rcases List.mem_cons.mp hs with rfl | h1
        · intro hmem
          rcases List.mem_cons.mp hmem with h2 | h2
          · exact hb h2.symm
          · exact ih' t (List.mem_cons_self t ts) h2
        · exact ih' s (List.mem_cons_of_mem t h1)

theorem nlRest_no10 (l : List Nat) : 10 ∉ nlRest l := by
  induction l with
  | nil => simp [nlRest, splitLast]
  | cons b rest ih =>
    rcases hsl : splitLast rest with ⟨segs, lst⟩
    have ih' : 10 ∉ lst := by simpa [nlRest, hsl] using ih
    by_cases hb : b = 10
    · simpa [nlRest, splitLast, hsl, hb] using ih'
    · cases segs with
      | nil =>
        simp only [nlRest, splitLast, hsl, if_neg hb]
        intro hmem
        rcases List.mem_cons.mp hmem with h2 | h2
        · exact hb h2.symm
        · exact ih' h2
      | cons t ts => simpa [nlRest, splitLast, hsl, hb] using ih'

theorem splitNl_term {s : List Nat} (hs : 10 ∉ s) (r : List Nat) :
    splitNl (s ++ 10 :: r) = s :: splitNl r := by
  induction s with
  | nil => simp [splitNl]
  | cons b bs ih =>
    have hb : b ≠ 10 := fun h => hs (by simp [h])
    have hbs : 10 ∉ bs := fun h => hs (List.mem_cons_of_mem b h)
    simp only [List.cons_append, splitNl, if_neg hb, List.append_eq, ih hbs]

theorem splitNl_of_no10 {l : List Nat} (h : 10 ∉ l) : splitNl l = [l] := by
  induction l with
  | nil => simp [splitNl]
  | cons b bs ih =>
    have hb : b ≠ 10 := fun hx => h (by simp [hx])
    have hbs : 10 ∉ bs := fun hx => h (List.mem_cons_of_mem b hx)
    simp only [splitNl, if_neg hb, ih hbs]

theorem splitNl_flatten_term (segs : List (List Nat)) (r : List Nat)
    (h : ∀ s ∈ segs, 10 ∉ s) :
    splitNl ((segs.map (· ++ [10])).flatten ++ r) = segs ++ splitNl r := by
  induction segs with
  | nil => simp
  | cons s ss ih =>
    have hs : 10 ∉ s := h s (List.mem_cons_self s ss)
    have hss : ∀ t ∈ ss, 10 ∉ t := fun t ht => h t (List.mem_cons_of_mem s ht)
    simp only [List.map_cons, List.flatten_cons, List.append_assoc,
      List.singleton_append, List.cons_append, List.nil_append]
    rw [splitNl_term hs, ih hss]

theorem splitNl_decomp (l r : List Nat) :
    splitNl (l ++ r) = nlSegs l ++ splitNl (nlRest l ++ r) := by
  conv_lhs => rw [← splitLast_decomp l]
  rw [List.append_assoc, splitNl_flatten_term _ _ (nlSegs_no10 l)]

theorem splitNl_eq (l : List Nat) : splitNl l = nlSegs l ++ [nlRest l] := by
  have h := splitNl_decomp l []
  simpa [splitNl_of_no10 (nlRest_no10 l)] using h

/-! ## Stripping -/

theorem stripList_sublist (p : Nat → Bool) (l : List Nat) :
    List.Sublist (stripList p l) l := by
  have h1 : List.Sublist (l.dropWhile p) l := List.dropWhile_sublist p
  have h2 : List.Sublist ((l.dropWhile p).reverse.dropWhile p)
      (l.dropWhile p).reverse := List.dropWhile_sublist p
  have h3 := h2.reverse
  rw [List.reverse_reverse] at h3
  exact h3.trans h1

theorem mem_of_mem_stripList {p : Nat → Bool} {l : List Nat} {a : Nat}
    (h : a ∈ stripList p l) : a ∈ l :=
  (stripList_sublist p l).subset h

theorem stripList_eq_nil {p : Nat → Bool} {l : List Nat}
    (h : stripList p l = []) : ∀ x ∈ l, p x := by
  unfold stripList at h
  rw [List.reverse_eq_nil_iff] at h
  have h3 : ∀ x ∈ l.dropWhile p, p x := fun x hx =>
    List.dropWhile_eq_nil_iff.mp h x (List.mem_reverse.mpr hx)
  cases hd : l.dropWhile p with
  | nil =>
    intro x hx
    have hl := List.takeWhile_append_dropWhile (p := p) (l := l)
    rw [hd, List.append_nil] at hl
    rw [← hl] at hx
    exact List.mem_takeWhile_imp hx
  | cons y ys =>
    have hy1 : p y = false := by
      have hh := List.head?_dropWhile_not p l
      rw [hd] at hh
      exact hh
    have hy2 : p y = true := h3 y (hd ▸ List.mem_cons_self y ys)
    rw [hy1] at hy2
    cases hy2

theorem stripList_append_left {p : Nat → Bool} {a : List Nat}
    (h : ∀ x ∈ a, p x) (b : List Nat) :
    stripList p (a ++ b) = stripList p b := by
  unfold stripList
  rw [List.dropWhile_append_of_pos h]

theorem stripList_append_right {p : Nat → Bool} {b : List Nat}
    (h : ∀ x ∈ b, p x) (a : List Nat) :
    stripList p (a ++ b) = stripList p a := by
  unfold stripList
  rw [List.dropWhile_append]
  by_cases hd : (a.dropWhile p).isEmpty
  · have ha : a.dropWhile p = [] := by rwa [List.isEmpty_iff] at hd
    rw [if_pos (by rw [ha]; rfl), List.dropWhile_eq_nil_iff.mpr h, ha]
  · rw [if_neg hd, List.reverse_append,
      List.dropWhile_append_of_pos (fun x hx => h x (List.mem_reverse.mp hx))]

theorem dropWhile_eq_strip_append (p : Nat → Bool) (l : List Nat) :
    ∃ tr, l.dropWhile p = stripList p l ++ tr ∧ ∀ x ∈ tr, p x := by
  refine ⟨((l.dropWhile p).reverse.takeWhile p).reverse, ?_, ?_⟩
  · conv_lhs =>
      rw [← List.reverse_reverse (l.dropWhile p),
        ← List.takeWhile_append_dropWhile (p := p) (l := (l.dropWhile p).reverse)]
    rw [List.reverse_append]
    rfl
  · exact fun x hx => List.mem_takeWhile_imp (List.mem_reverse.mp hx)

theorem stripList_head?_not {p : Nat → Bool} {l : List Nat} {x : Nat}
    (h : (stripList p l).head? = some x) : p x = false := by
  obtain ⟨tr, hd, _⟩ := dropWhile_eq_strip_append p l
  cases hcs : stripList p l with
  | nil => rw [hcs] at h; cases h
  | cons y ys =>
    rw [hcs] at h
    have hx : x = y := by cases h; rfl
    subst hx
    have hdd : l.dropWhile p = x :: (ys ++ tr) := by
      rw [hd, hcs, List.cons_append]
    have hh := List.head?_dropWhile_not p l
    rw [hdd] at hh
    exact hh

theorem stripList_getLast?_not {p : Nat → Bool} {l : List Nat} {x : Nat}
    (h : (stripList p l).getLast? = some x) : p x = false := by
  unfold stripList at h
  rw [List.getLast?_reverse] at h
  have hh := List.head?_dropWhile_not p (l.dropWhile p).reverse
  rw [h] at hh
  exact hh

theorem stripList_idem (p : Nat → Bool) (l : List Nat) :
    stripList p (stripList p l) = stripList p l := by
  cases hcs : stripList p l with
  | nil => simp [stripList]
  | cons y ys =>
    have hy : p y = false := stripList_head?_not (by rw [hcs]; rfl)
    have h1 : (stripList p l).dropWhile p = stripList p l := by
      rw [hcs]
      exact List.dropWhile_cons_of_neg (by simp [hy])
    have hne : stripList p l ≠ [] := by rw [hcs]; simp
    obtain ⟨z, hgl⟩ : ∃ z, (stripList p l).getLast? = some z := by
      rw [hcs]
      exact ⟨(y :: ys).getLast (by simp), List.getLast?_eq_getLast _ (by simp)⟩
    have hz : p z = false := stripList_getLast?_not hgl
    have h2 : (stripList p l).reverse.dropWhile p = (stripList p l).reverse := by
      cases hr : (stripList p l).reverse with
      | nil => rfl
      | cons w ws =>
        have hw : (stripList p l).reverse.head? = some w := by rw [hr]; rfl
        rw [List.head?_reverse, hgl] at hw
        have hwz : z = w := by cases hw; rfl
        subst hwz
        exact List.dropWhile_cons_of_neg (by simp [hz])
    have hun : stripList p (stripList p l) =
        (((stripList p l).dropWhile p).reverse.dropWhile p).reverse := rfl
    rw [← hcs, hun, h1, h2, List.reverse_reverse]

/-! ## The UTF-8 codec -/

theorem utf8Decode_one (b : Nat) :
    utf8Decode [b] = if b < 0x80 then some [b] else none := rfl

theorem utf8Decode_pair (b b1 : Nat) :
    utf8Decode [b, b1] =
      if b < 0x80 then (utf8Decode [b1]).map (b :: ·)
      else if b ≤ 0xDF then if twoOk b b1 then some [cp2 b b1] else none
      else none := rfl

theorem utf8Decode_triple (b b1 b2 : Nat) :
    utf8Decode [b, b1, b2] =
      if b < 0x80 then (utf8Decode [b1, b2]).map (b :: ·)
      else if b ≤ 0xDF then
        if twoOk b b1 then (utf8Decode [b2]).map (cp2 b b1 :: ·) else none
      else if b ≤ 0xEF then
        if threeOk b b1 b2 then some [cp3 b b1 b2] else none
      else none := rfl

theorem utf8Decode_big (b b1 b2 b3 : Nat) (rest : List Nat) :
    utf8Decode (b :: b1 :: b2 :: b3 :: rest) =
      if b < 0x80 then (utf8Decode (b1 :: b2 :: b3 :: rest)).map (b :: ·)
      else if b ≤ 0xDF then
        if twoOk b b1 then (utf8Decode (b2 :: b3 :: rest)).map (cp2 b b1 :: ·)
        else none
      else if b ≤ 0xEF then
        if threeOk b b1 b2 then (utf8Decode (b3 :: rest)).map (cp3 b b1 b2 :: ·)
        else none
      else if fourOk b b1 b2 b3 then
        (utf8Decode rest).map (cp4 b b1 b2 b3 :: ·)
      else none := rfl

theorem isCont_of_lt {b : Nat} (h : b < 0x80) : isCont b = false := by
  simp only [isCont, Bool.and_eq_false_iff, decide_eq_false_iff_not, not_le]
  omega

theorem twoOk_of_lt {b b1 : Nat} (h : b1 < 0x80) : twoOk b b1 = false := by
  simp [twoOk, isCont_of_lt h]

theorem threeOk_of_lt₁ {b b1 b2 : Nat} (h : b1 < 0x80) :
    threeOk b b1 b2 = false := by
  simp only [threeOk, isCont]
  split_ifs <;>
    simp only [Bool.and_eq_false_iff, decide_eq_false_iff_not, not_le] <;>
    omega

theorem threeOk_of_lt₂ {b b1 b2 : Nat} (h : b2 < 0x80) :
    threeOk b b1 b2 = false := by
  simp [threeOk, isCont_of_lt h]

theorem fourOk_of_lt₁ {b b1 b2 b3 : Nat} (h : b1 < 0x80) :
    fourOk b b1 b2 b3 = false := by
  simp only [fourOk, isCont]
  split_ifs <;>
    simp only [Bool.and_eq_false_iff, decide_eq_false_iff_not, not_le] <;>
    omega

theorem fourOk_of_lt₂ {b b1 b2 b3 : Nat} (h : b2 < 0x80) :
    fourOk b b1 b2 b3 = false := by
  simp [fourOk, isCont_of_lt h]

theorem fourOk_of_lt₃ {b b1 b2 b3 : Nat} (h : b3 < 0x80) :
    fourOk b b1 b2 b3 = false := by
  simp [fourOk, isCont_of_lt h]

theorem utf8Decode_cons_ascii {b : Nat} (h : b < 0x80) (r : List Nat) :
    utf8Decode (b :: r) = (utf8Decode r).map (b :: ·) := by
  rcases r with _ | ⟨c1, _ | ⟨c2, _ | ⟨c3, r'⟩⟩⟩
  · rw [utf8Decode_one, if_pos h]
    rfl
  · rw [utf8Decode_pair, if_pos h]
  · rw [utf8Decode_triple, if_pos h]
  · rw [utf8Decode_big, if_pos h]

theorem utf8Decode_lead2 {b : Nat} (hb : 0x80 ≤ b) (hb2 : b ≤ 0xDF)
    (b1 : Nat) (r : List Nat) :
    utf8Decode (b :: b1 :: r) =
      if twoOk b b1 then (utf8Decode r).map (cp2 b b1 :: ·) else none := by
  have hnb : ¬ b < 0x80 := by omega
  rcases r with _ | ⟨c1, _ | ⟨c2, r'⟩⟩
  · rw [utf8Decode_pair, if_neg hnb, if_pos hb2]
    split_ifs <;> rfl
  · rw [utf8Decode_triple, if_neg hnb, if_pos hb2]
  · rw [utf8Decode_big, if_neg hnb, if_pos hb2]

theorem utf8Decode_lead3 {b : Nat} (hb : 0xDF < b) (hb3 : b ≤ 0xEF)
    (b1 b2 : Nat) (r : List Nat) :
    utf8Decode (b :: b1 :: b2 :: r) =
      if threeOk b b1 b2 then (utf8Decode r).map (cp3 b b1 b2 :: ·)
      else none := by
  have hnb : ¬ b < 0x80 := by omega
  have hn2 : ¬ b ≤ 0xDF := by omega
  rcases r with _ | ⟨c1, r'⟩
  · rw [utf8Decode_triple, if_neg hnb, if_neg hn2, if_pos hb3]
    split_ifs <;> rfl
  · rw [utf8Decode_big, if_neg hnb, if_neg hn2, if_pos hb3]

theorem utf8Decode_lead4 {b : Nat} (hb : 0xEF < b) (b1 b2 b3 : Nat)
    (r : List Nat) :
    utf8Decode (b :: b1 :: b2 :: b3 :: r) =
      if fourOk b b1 b2 b3 then (utf8Decode r).map (cp4 b b1 b2 b3 :: ·)
      else none := by
  have hnb : ¬ b < 0x80 := by omega
  have hn2 : ¬ b ≤ 0xDF := by omega
  have hn3 : ¬ b ≤ 0xEF := by omega
  rw [utf8Decode_big, if_neg hnb, if_neg hn2, if_neg hn3]

theorem utf8Decode_ascii {l : List Nat} (h : ∀ b ∈ l, b < 0x80) :
    utf8Decode l = some l := by
  induction l with
  | nil => rfl
  | cons b r ih =>
    rw [utf8Decode_cons_ascii (h b (List.mem_cons_self b r)),
      ih (fun x hx => h x (List.mem_cons_of_mem b hx))]
    rfl

theorem utf8Decode_append_left {p : List Nat} (hp : ∀ b ∈ p, b < 0x80)
    (r : List Nat) : utf8Decode (p ++ r) = (utf8Decode r).map (p ++ ·) := by
  induction p with
  | nil =>
    simp only [List.nil_append]
    cases utf8Decode r <;> rfl
  | cons b bs ih =>
    rw [List.cons_append, utf8Decode_cons_ascii (hp b (List.mem_cons_self b bs)),
      ih (fun x hx => hp x (List.mem_cons_of_mem b hx))]
    cases utf8Decode r <;> simp

/-- Appending an all-ASCII suffix neither repairs nor breaks a UTF-8
prefix: ASCII bytes are never continuation bytes, so no multi-byte
sequence can straddle the boundary. -/
theorem utf8Decode_append_right {q : List Nat} (hq : ∀ x ∈ q, x < 0x80) :
    ∀ m, utf8Decode (m ++ q) = (utf8Decode m).map (· ++ q) := by
  suffices H : ∀ n m, m.length ≤ n →
      utf8Decode (m ++ q) = (utf8Decode m).map (· ++ q) from
    fun m => H m.length m le_rfl
  intro n
  induction n with
  | zero =>
    intro m hm
    obtain rfl : m = [] := List.length_eq_zero.mp (Nat.le_zero.mp hm)
    rw [List.nil_append, utf8Decode_ascii hq]
    rfl
  | succ n ih =>
    intro m hm
    rcases m with _ | ⟨b, m'⟩
    · rw [List.nil_append, utf8Decode_ascii hq]
      rfl
    · simp only [List.length_cons] at hm
      rcases Nat.lt_or_ge b 0x80 with hb | hb
      · rw [List.cons_append, utf8Decode_cons_ascii hb, utf8Decode_cons_ascii hb,
          ih m' (by omega)]
        cases utf8Decode m' <;> simp
      · by_cases h2 : b ≤ 0xDF
        · rcases m' with _ | ⟨b1, m''⟩
          · rw [utf8Decode_one, if_neg (by omega)]
            rcases q with _ | ⟨q0, _ | ⟨q1, _ | ⟨q2, q'⟩⟩⟩
            · rw [List.append_nil, utf8Decode_one, if_neg (by omega)]
              rfl
            · have ht : twoOk b q0 = false := twoOk_of_lt (hq q0 (by simp))
              simp only [List.cons_append, List.nil_append]
              rw [utf8Decode_pair, if_neg (by omega), if_pos h2, ht]
              rfl
            · have ht : twoOk b q0 = false := twoOk_of_lt (hq q0 (by simp))
              simp only [List.cons_append, List.nil_append]
              rw [utf8Decode_triple, if_neg (by omega), if_pos h2, ht]
              rfl
            · have ht : twoOk b q0 = false := twoOk_of_lt (hq q0 (by simp))
              simp only [List.cons_append, List.nil_append]
              rw [utf8Decode_big, if_neg (by omega), if_pos h2, ht]
              rfl
          · simp only [List.cons_append]
            rw [utf8Decode_lead2 hb h2 b1 (m'' ++ q), utf8Decode_lead2 hb h2 b1 m'']
            by_cases ht : twoOk b b1
            · rw [if_pos ht, if_pos ht, ih m'' (by simp only [List.length_cons] at hm; omega)]
              cases utf8Decode m'' <;> simp
            · rw [if_neg ht, if_neg ht]
              rfl
        · by_cases h3 : b ≤ 0xEF
          · rcases m' with _ | ⟨b1, _ | ⟨b2, m''⟩⟩
            · rw [utf8Decode_one, if_neg (by omega)]
              rcases q with _ | ⟨q0, _ | ⟨q1, _ | ⟨q2, q'⟩⟩⟩
              · rw [List.append_nil, utf8Decode_one, if_neg (by omega)]
                rfl
              · simp only [List.cons_append, List.nil_append]
                rw [utf8Decode_pair, if_neg (by omega), if_neg h2]
                rfl
              · have h3f : threeOk b q0 q1 = false := threeOk_of_lt₁ (hq q0 (by simp))
                simp only [List.cons_append, List.nil_append]
                rw [utf8Decode_triple, if_neg (by omega), if_neg h2, if_pos h3, h3f]
                rfl
              · have h3f : threeOk b q0 q1 = false := threeOk_of_lt₁ (hq q0 (by simp))
                simp only [List.cons_append, List.nil_append]
                rw [utf8Decode_big, if_neg (by omega), if_neg h2, if_pos h3, h3f]
                rfl
            · rw [utf8Decode_pair, if_neg (by omega), if_neg h2]
              rcases q with _ | ⟨q0, _ | ⟨q1, q'⟩⟩
              · simp only [List.cons_append, List.nil_append, List.append_nil]
                rw [utf8Decode_pair, if_neg (by omega), if_neg h2]
                rfl
              · have h3f : threeOk b b1 q0 = false := threeOk_of_lt₂ (hq q0 (by simp))
                simp only [List.cons_append, List.nil_append]
                rw [utf8Decode_triple, if_neg (by omega), if_neg h2, if_pos h3, h3f]
                rfl
              · have h3f : threeOk b b1 q0 = false := threeOk_of_lt₂ (hq q0 (by simp))
                simp only [List.cons_append, List.nil_append]
                rw [utf8Decode_big, if_neg (by omega), if_neg h2, if_pos h3, h3f]
                rfl
            · simp only [List.cons_append]
              rw [utf8Decode_lead3 (by omega) h3 b1 b2 (m'' ++ q),
                utf8Decode_lead3 (by omega) h3 b1 b2 m'']
              by_cases h3t : threeOk b b1 b2
              · rw [if_pos h3t, if_pos h3t,
                  ih m'' (by simp only [List.length_cons] at hm; omega)]
                cases utf8Decode m'' <;> simp
              · rw [if_neg h3t, if_neg h3t]
                rfl
          · rcases m' with _ | ⟨b1, _ | ⟨b2, _ | ⟨b3, m''⟩⟩⟩
            · rw [utf8Decode_one, if_neg (by omega)]
              rcases q with _ | ⟨q0, _ | ⟨q1, _ | ⟨q2, q'⟩⟩⟩
              · rw [List.append_nil, utf8Decode_one, if_neg (by omega)]
                rfl
              · simp only [List.cons_append, List.nil_append]
                rw [utf8Decode_pair, if_neg (by omega), if_neg h2]
                rfl
              · simp only [List.cons_append, List.nil_append]
                rw [utf8Decode_triple, if_neg (by omega), if_neg h2, if_neg h3]
                rfl
              · have h4f : fourOk b q0 q1 q2 = false := fourOk_of_lt₁ (hq q0 (by simp))
                simp only [List.cons_append, List.nil_append]
                rw [utf8Decode_big, if_neg (by omega), if_neg h2, if_neg h3, h4f]
                rfl
            · rw [utf8Decode_pair, if_neg (by omega), if_neg h2]
              rcases q with _ | ⟨q0, _ | ⟨q1, q'⟩⟩
              · simp only [List.cons_append, List.nil_append, List.append_nil]
                rw [utf8Decode_pair, if_neg (by omega), if_neg h2]
                rfl
              · simp only [List.cons_append, List.nil_append]
                rw [utf8Decode_triple, if_neg (by omega), if_neg h2, if_neg h3]
                rfl
              · have h4f : fourOk b b1 q0 q1 = false := fourOk_of_lt₂ (hq q0 (by simp))
                simp only [List.cons_append, List.nil_append]
                rw [utf8Decode_big, if_neg (by omega), if_neg h2, if_neg h3, h4f]
                rfl
            · rw [utf8Decode_triple, if_neg (by omega), if_neg h2, if_neg h3]
              rcases q with _ | ⟨q0, q'⟩
              · simp only [List.cons_append, List.nil_append, List.append_nil]
                rw [utf8Decode_triple, if_neg (by omega), if_neg h2, if_neg h3]
                rfl
              · have h4f : fourOk b b1 b2 q0 = false := fourOk_of_lt₃ (hq q0 (by simp))
                simp only [List.cons_append, List.nil_append]
                rw [utf8Decode_big, if_neg (by omega), if_neg h2, if_neg h3, h4f]
                rfl
            · simp only [List.cons_append]
              rw [utf8Decode_lead4 (by omega) b1 b2 b3 (m'' ++ q),
                utf8Decode_lead4 (by omega) b1 b2 b3 m'']
              by_cases h4t : fourOk b b1 b2 b3
              · rw [if_pos h4t, if_pos h4t,
                  ih m'' (by simp only [List.length_cons] at hm; omega)]
                cases utf8Decode m'' <;> simp
              · rw [if_neg h4t, if_neg h4t]
                rfl

/-- Code points produced by the decoder are Unicode scalar values, and any
ASCII code point among them occurs as a byte of the input. -/
theorem utf8Decode_some_props :
    ∀ {l cs : List Nat}, utf8Decode l = some cs →
      ∀ c ∈ cs, ValidScalar c ∧ (c < 0x80 → c ∈ l) := by
  suffices H : ∀ n, ∀ {l cs : List Nat}, l.length ≤ n → utf8Decode l = some cs →
      ∀ c ∈ cs, ValidScalar c ∧ (c < 0x80 → c ∈ l) from
    fun {l cs} h => H l.length le_rfl h
  intro n
  induction n with
  | zero =>
    intro l cs hl hdec c hc
    obtain rfl : l = [] := List.length_eq_zero.mp (Nat.le_zero.mp hl)
    obtain rfl : cs = [] := by
      have : some [] = some cs := hdec
      cases this
      rfl
    cases hc
  | succ n ih =>
    intro l cs hl hdec c hc
    rcases l with _ | ⟨b, m⟩
    · obtain rfl : cs = [] := by
        have : some [] = some cs := hdec
        cases this
        rfl
      cases hc
    · simp only [List.length_cons] at hl
      rcases Nat.lt_or_ge b 0x80 with hb | hb
      · rw [utf8Decode_cons_ascii hb] at hdec
        rcases Option.map_eq_some'.mp hdec with ⟨cs', hm, rfl⟩
        rcases List.mem_cons.mp hc with rfl | hc'
        · exact ⟨⟨by omega, by omega⟩, fun _ => List.mem_cons_self c m⟩
        · obtain ⟨hv, hmem⟩ := ih (by (try simp only [List.length_cons] at hl); omega) hm c hc'
          exact ⟨hv, fun hlt => List.mem_cons_of_mem b (hmem hlt)⟩
      · by_cases h2 : b ≤ 0xDF
        · rcases m with _ | ⟨b1, m'⟩
          · rw [utf8Decode_one, if_neg (by omega)] at hdec
            cases hdec
          · rw [utf8Decode_lead2 hb h2 b1 m'] at hdec
            by_cases ht : twoOk b b1
            · rw [if_pos ht] at hdec
              rcases Option.map_eq_some'.mp hdec with ⟨cs', hm, rfl⟩
              simp only [twoOk, isCont, Bool.and_eq_true, decide_eq_true_eq] at ht
              rcases List.mem_cons.mp hc with rfl | hc'
              · refine ⟨⟨by simp only [cp2]; omega, by simp only [cp2]; omega⟩,
                  fun hlt => absurd hlt (by simp only [cp2]; omega)⟩
              · obtain ⟨hv, hmem⟩ := ih (by (try simp only [List.length_cons] at hl); omega) hm c hc'
                exact ⟨hv, fun hlt =>
                  List.mem_cons_of_mem b (List.mem_cons_of_mem b1 (hmem hlt))⟩
            · rw [if_neg ht] at hdec
              cases hdec
        · by_cases h3 : b ≤ 0xEF
          · rcases m with _ | ⟨b1, _ | ⟨b2, m'⟩⟩
            · rw [utf8Decode_one, if_neg (by omega)] at hdec
              cases hdec
            · rw [utf8Decode_pair, if_neg (by omega), if_neg h2] at hdec
              cases hdec
            · rw [utf8Decode_lead3 (by omega) h3 b1 b2 m'] at hdec
              by_cases ht : threeOk b b1 b2
              · rw [if_pos ht] at hdec
                rcases Option.map_eq_some'.mp hdec with ⟨cs', hm, rfl⟩
                simp only [threeOk, isCont, Bool.and_eq_true] at ht
                rcases List.mem_cons.mp hc with rfl | hc'
                · constructor
                  · split_ifs at ht with hE0 hED <;>
                      simp only [decide_eq_true_eq, Bool.and_eq_true] at ht <;>
                      exact ⟨by simp only [cp3]; omega, by simp only [cp3]; omega⟩
                  · intro hlt
                    exfalso
                    split_ifs at ht with hE0 hED <;>
                      simp only [decide_eq_true_eq, Bool.and_eq_true] at ht <;>
                      revert hlt <;> simp only [cp3] <;> omega
                · obtain ⟨hv, hmem⟩ := ih (by (try simp only [List.length_cons] at hl); omega) hm c hc'
                  exact ⟨hv, fun hlt => List.mem_cons_of_mem b
                    (List.mem_cons_of_mem b1 (List.mem_cons_of_mem b2 (hmem hlt)))⟩
              · rw [if_neg ht] at hdec
                cases hdec
          · rcases m with _ | ⟨b1, _ | ⟨b2, _ | ⟨b3, m'⟩⟩⟩
            · rw [utf8Decode_one, if_neg (by omega)] at hdec
              cases hdec
            · rw [utf8Decode_pair, if_neg (by omega), if_neg h2] at hdec
              cases hdec
            · rw [utf8Decode_triple, if_neg (by omega), if_neg h2, if_neg h3] at hdec
              cases hdec
            · rw [utf8Decode_lead4 (by omega) b1 b2 b3 m'] at hdec
              by_cases ht : fourOk b b1 b2 b3
              · rw [if_pos ht] at hdec
                rcases Option.map_eq_some'.mp hdec with ⟨cs', hm, rfl⟩
                simp only [fourOk, isCont, Bool.and_eq_true] at ht
                rcases List.mem_cons.mp hc with rfl | hc'
                · constructor
                  · split_ifs at ht with hF0 hF4 <;>
                      simp only [decide_eq_true_eq, Bool.and_eq_true] at ht <;>
                      exact ⟨by simp only [cp4]; omega, by simp only [cp4]; omega⟩
                  · intro hlt
                    exfalso
                    split_ifs at ht with hF0 hF4 <;>
                      simp only [decide_eq_true_eq, Bool.and_eq_true] at ht <;>
                      revert hlt <;> simp only [cp4] <;> omega
                · obtain ⟨hv, hmem⟩ := ih (by (try simp only [List.length_cons] at hl); omega) hm c hc'
                  exact ⟨hv, fun hlt => List.mem_cons_of_mem b
                    (List.mem_cons_of_mem b1 (List.mem_cons_of_mem b2
                      (List.mem_cons_of_mem b3 (hmem hlt))))⟩
              · rw [if_neg ht] at hdec
                cases hdec

theorem utf8Decode_encodeChar_append {c : Nat} (h : ValidScalar c)
    (r : List Nat) :
    utf8Decode (utf8EncodeChar c ++ r) = (utf8Decode r).map (c :: ·) := by
  obtain ⟨h1, h2⟩ := h
  by_cases hA : c < 0x80
  · have he : utf8EncodeChar c = [c] := by simp [utf8EncodeChar, hA]
    rw [he, List.singleton_append, utf8Decode_cons_ascii hA]
  · by_cases hB : c < 0x800
    · have he : utf8EncodeChar c = [0xC0 + c / 64, 0x80 + c % 64] := by
        simp [utf8EncodeChar, hA, hB]
      rw [he]
      simp only [List.cons_append, List.nil_append]
      rw [utf8Decode_lead2 (by omega) (by omega)]
      rw [if_pos (by
        simp only [twoOk, isCont, Bool.and_eq_true, decide_eq_true_eq]
        omega)]
      have hv : cp2 (0xC0 + c / 64) (0x80 + c % 64) = c := by
        simp only [cp2]
        omega
      rw [hv]
    · by_cases hC : c < 0x10000
      · have he : utf8EncodeChar c =
            [0xE0 + c / 4096, 0x80 + c / 64 % 64, 0x80 + c % 64] := by
          simp [utf8EncodeChar, hA, hB, hC]
        rw [he]
        simp only [List.cons_append, List.nil_append]
        rw [utf8Decode_lead3 (by omega) (by omega)]
        have hok : threeOk (0xE0 + c / 4096) (0x80 + c / 64 % 64)
            (0x80 + c % 64) = true := by
          simp only [threeOk, isCont, Bool.and_eq_true, decide_eq_true_eq]
          split_ifs with hE0 hED <;>
            simp only [Bool.and_eq_true, decide_eq_true_eq] <;> omega
        rw [if_pos hok]
        have hv : cp3 (0xE0 + c / 4096) (0x80 + c / 64 % 64) (0x80 + c % 64) = c := by
          simp only [cp3]
          omega
        rw [hv]
      · have he : utf8EncodeChar c =
            [0xF0 + c / 262144, 0x80 + c / 4096 % 64, 0x80 + c / 64 % 64,
             0x80 + c % 64] := by
          simp [utf8EncodeChar, hA, hB, hC]
        rw [he]
        simp only [List.cons_append, List.nil_append]
        rw [utf8Decode_lead4 (by omega)]
        have hok : fourOk (0xF0 + c / 262144) (0x80 + c / 4096 % 64)
            (0x80 + c / 64 % 64) (0x80 + c % 64) = true := by
          simp only [fourOk, isCont, Bool.and_eq_true, decide_eq_true_eq]
          split_ifs with hF0 hF4 <;>
            simp only [Bool.and_eq_true, decide_eq_true_eq] <;> omega
        rw [if_pos hok]
        have hv : cp4 (0xF0 + c / 262144) (0x80 + c / 4096 % 64)
            (0x80 + c / 64 % 64) (0x80 + c % 64) = c := by
          simp only [cp4]
          omega
        rw [hv]

theorem utf8Encode_append (a b : List Nat) :
    utf8Encode (a ++ b) = utf8Encode a ++ utf8Encode b := by
  induction a with
  | nil => rfl
  | cons c cs ih =>
    simp only [List.cons_append, utf8Encode, List.append_eq, ih, List.append_assoc]

/-- Encode-then-decode with an arbitrary remainder: the encoding of a
valid scalar string decodes back to itself. -/
theorem utf8Decode_encode_append {cs : List Nat}
    (h : ∀ c ∈ cs, ValidScalar c) (r : List Nat) :
    utf8Decode (utf8Encode cs ++ r) = (utf8Decode r).map (cs ++ ·) := by
  induction cs with
  | nil =>
    simp only [utf8Encode, List.nil_append]
    cases utf8Decode r <;> rfl
  | cons c cs' ih =>
    simp only [utf8Encode, List.append_assoc]
    rw [utf8Decode_encodeChar_append (h c (List.mem_cons_self c cs')),
      ih (fun x hx => h x (List.mem_cons_of_mem c hx))]
    cases utf8Decode r <;> simp

theorem utf8Decode_utf8Encode {cs : List Nat} (h : ∀ c ∈ cs, ValidScalar c) :
    utf8Decode (utf8Encode cs) = some cs := by
  have hr := utf8Decode_encode_append h []
  rw [show utf8Decode ([] : List Nat) = some [] from rfl] at hr
  simpa using hr

theorem mem_utf8EncodeChar {c x : Nat} (hx : x ∈ utf8EncodeChar c) :
    (c < 0x80 ∧ x = c) ∨ 0x80 ≤ x := by
  by_cases hA : c < 0x80
  · rw [show utf8EncodeChar c = [c] from by simp [utf8EncodeChar, hA]] at hx
    simp only [List.mem_singleton] at hx
    exact Or.inl ⟨hA, hx⟩
  · right
    by_cases hB : c < 0x800
    · rw [show utf8EncodeChar c = [0xC0 + c / 64, 0x80 + c % 64] from by
        simp [utf8EncodeChar, hA, hB]] at hx
      simp only [List.mem_cons, List.not_mem_nil, or_false] at hx
      rcases hx with rfl | rfl <;> omega
    · by_cases hC : c < 0x10000
      · rw [show utf8EncodeChar c =
            [0xE0 + c / 4096, 0x80 + c / 64 % 64, 0x80 + c % 64] from by
          simp [utf8EncodeChar, hA, hB, hC]] at hx
        simp only [List.mem_cons, List.not_mem_nil, or_false] at hx
        rcases hx with rfl | rfl | rfl <;> omega
      · rw [show utf8EncodeChar c =
            [0xF0 + c / 262144, 0x80 + c / 4096 % 64, 0x80 + c / 64 % 64,
             0x80 + c % 64] from by simp [utf8EncodeChar, hA, hB, hC]] at hx
        simp only [List.mem_cons, List.not_mem_nil, or_false] at hx
        rcases hx with rfl | rfl | rfl | rfl <;> omega

theorem mem_utf8Encode_lt {cs : List Nat} {x : Nat} (hx : x ∈ utf8Encode cs)
    (hlt : x < 0x80) : x ∈ cs := by
  induction cs with
  | nil => cases hx
  | cons c cs' ih =>
    simp only [utf8Encode] at hx
    rcases List.mem_append.mp hx with h | h
    · rcases mem_utf8EncodeChar h with ⟨_, rfl⟩ | hge
      · exact List.mem_cons_self x cs'
      · omega
    · exact List.mem_cons_of_mem c (ih h)

theorem utf8EncodeChar_ne_nil (c : Nat) : utf8EncodeChar c ≠ [] := by
  simp only [utf8EncodeChar]
  split_ifs <;> simp

theorem utf8Encode_ne_nil {l : List Nat} (h : l ≠ []) : utf8Encode l ≠ [] := by
  rcases l with _ | ⟨c, cs⟩
  · exact absurd rfl h
  · simp only [utf8Encode, ne_eq, List.append_eq_nil, not_and]
    intro hc
    exact absurd hc (utf8EncodeChar_ne_nil c)

/-! ## Lines: decoding with fallback, stripping, the INSERT test -/

theorem isWsByte_lt {b : Nat} (h : isWsByte b = true) : b < 0x80 := by
  simp only [isWsByte, Bool.or_eq_true, decide_eq_true_eq] at h
  omega

theorem isWsCp_of_isWsByte {b : Nat} (h : isWsByte b = true) :
    isWsCp b = true := by
  simp [isWsCp, h]

theorem pyDecodeBytes_ws_front {p bs : List Nat}
    (hp : ∀ x ∈ p, isWsByte x = true) :
    stripCps (pyDecodeBytes (p ++ bs)) = stripCps (pyDecodeBytes bs) := by
  have hp' : ∀ x ∈ p, x < 0x80 := fun x hx => isWsByte_lt (hp x hx)
  have hpc : ∀ x ∈ p, isWsCp x = true := fun x hx => isWsCp_of_isWsByte (hp x hx)
  unfold pyDecodeBytes
  rw [utf8Decode_append_left hp']
  cases hd : utf8Decode bs with
  | some cs =>
    simp only [Option.map_some', Option.getD_some]
    exact stripList_append_left hpc cs
  | none =>
    simp only [Option.map_none', Option.getD_none]
    exact stripList_append_left hpc bs

theorem pyDecodeBytes_ws_suffix {q bs : List Nat}
    (hq : ∀ x ∈ q, isWsByte x = true) :
    stripCps (pyDecodeBytes (bs ++ q)) = stripCps (pyDecodeBytes bs) := by
  have hq' : ∀ x ∈ q, x < 0x80 := fun x hx => isWsByte_lt (hq x hx)
  have hqc : ∀ x ∈ q, isWsCp x = true := fun x hx => isWsCp_of_isWsByte (hq x hx)
  unfold pyDecodeBytes
  rw [utf8Decode_append_right hq' bs]
  cases hd : utf8Decode bs with
  | some cs =>
    simp only [Option.map_some', Option.getD_some]
    exact stripList_append_right hqc cs
  | none =>
    simp only [Option.map_none', Option.getD_none]
    exact stripList_append_right hqc bs

/-- Stripping the bytes before decoding does not change the
decoded-then-stripped line: ASCII whitespace passes through both decoders
and is then stripped at the string level. -/
theorem strip_decode_invariant (bs : List Nat) :
    stripCps (pyDecodeBytes (stripBytes bs)) = stripCps (pyDecodeBytes bs) := by
  obtain ⟨tr, hd, htr⟩ := dropWhile_eq_strip_append isWsByte bs
  have h1 : stripCps (pyDecodeBytes (stripBytes bs)) =
      stripCps (pyDecodeBytes (bs.dropWhile isWsByte)) := by
    rw [hd]
    exact (pyDecodeBytes_ws_suffix htr).symm
  have h2 : stripCps (pyDecodeBytes (bs.dropWhile isWsByte)) =
      stripCps (pyDecodeBytes bs) := by
    conv_rhs =>
      rw [← List.takeWhile_append_dropWhile (p := isWsByte) (l := bs)]
    rw [pyDecodeBytes_ws_front (fun x hx => List.mem_takeWhile_imp hx)]
  rw [h1, h2]

theorem specLine_nil : specLine [] = none := rfl

theorem specLine_of_all_ws {bs : List Nat}
    (h : ∀ x ∈ bs, isWsByte x = true) : specLine bs = none := by
  unfold specLine pyDecodeBytes
  rw [utf8Decode_ascii (fun x hx => isWsByte_lt (h x hx))]
  have hnil : stripCps bs = [] := by
    have h2 := stripList_append_left (p := isWsCp)
      (fun x hx => isWsCp_of_isWsByte (h x hx)) ([] : List Nat)
    simpa using h2
  simp only [Option.getD_some, hnil]
  rfl

theorem mainLineF_eq_specLine : mainLineF = specLine := by
  funext bs
  by_cases h : stripBytes bs = []
  · rw [specLine_of_all_ws (stripList_eq_nil h)]
    simp only [mainLineF, h]
    rfl
  · simp only [mainLineF, if_neg h, specLine, strip_decode_invariant bs]

theorem eofLineF_eq_specLine : eofLineF = specLine := by
  funext bs
  by_cases h : stripBytes bs = []
  · rw [specLine_of_all_ws (stripList_eq_nil h)]
    simp only [eofLineF, h]
    rfl
  · simp only [eofLineF, if_neg h, specLine]

theorem filterSpec_decomp (x rest : List Nat) :
    filterSpec (x ++ rest) =
      (nlSegs x).filterMap specLine ++ filterSpec (nlRest x ++ rest) := by
  unfold filterSpec
  rw [splitNl_decomp, List.filterMap_append]

theorem filterSpec_nil : filterSpec [] = [] := rfl

/-- The chunked reading loop computes the canonical filter of the
reassembled stream, for any chunking into non-empty reads. -/
theorem iterChunks_eq_filterSpec :
    ∀ (chunks : List (List Nat)) (buffer : List Nat),
      (∀ c ∈ chunks, c ≠ []) →
      iterChunks buffer chunks = filterSpec (buffer ++ chunks.flatten) := by
  intro chunks
  induction chunks with
  | nil =>
    intro buffer _
    simp only [iterChunks, List.flatten_nil, List.append_nil]
    by_cases h : buffer = []
    · rw [if_pos h, h]
      rfl
    · rw [if_neg h, eofLineF_eq_specLine]
      rfl
  | cons c cs ih =>
    intro buffer h
    have hc : c ≠ [] := h c (List.mem_cons_self c cs)
    simp only [iterChunks, if_neg hc]
    rw [ih _ (fun x hx => h x (List.mem_cons_of_mem c hx)),
      mainLineF_eq_specLine, List.flatten_cons, ← List.append_assoc,
      ← filterSpec_decomp]

theorem chunksOfAux_flatten {n : Nat} (hn : 0 < n) :
    ∀ (fuel : Nat) (l : List Nat), l.length ≤ fuel →
      (chunksOfAux n fuel l).flatten = l := by
  intro fuel
  induction fuel with
  | zero =>
    intro l hl
    obtain rfl : l = [] := List.length_eq_zero.mp (Nat.le_zero.mp hl)
    rfl
  | succ f ih =>
    intro l hl
    rcases l with _ | ⟨b, rest⟩
    · rfl
    · simp only [chunksOfAux, List.flatten_cons]
      rw [ih _ (by simp only [List.length_drop, List.length_cons] at hl ⊢; omega)]
      exact List.take_append_drop n (b :: rest)

theorem chunksOf_flatten {n : Nat} {l : List Nat} (hn : 0 < n) :
    (chunksOf n l).flatten = l := by
  unfold chunksOf
  rw [if_neg (by omega)]
  exact chunksOfAux_flatten hn l.length l le_rfl

theorem chunksOfAux_ne_nil {n : Nat} (hn : 0 < n) :
    ∀ (fuel : Nat) (l : List Nat), ∀ c ∈ chunksOfAux n fuel l, c ≠ [] := by
  intro fuel
  induction fuel with
  | zero =>
    intro l c hc
    rcases l with _ | ⟨b, rest⟩ <;> cases hc
  | succ f ih =>
    intro l c hc
    rcases l with _ | ⟨b, rest⟩
    · cases hc
    · simp only [chunksOfAux] at hc
      rcases List.mem_cons.mp hc with rfl | hc'
      · simp only [ne_eq, List.take_eq_nil_iff]
        push_neg
        exact ⟨by omega, by simp⟩
      · exact ih _ c hc'

theorem chunksOf_ne_nil {n : Nat} {l : List Nat} :
    ∀ c ∈ chunksOf n l, c ≠ [] := by
  unfold chunksOf
  by_cases h : n = 0
  · simp [h]
  · rw [if_neg h]
    exact chunksOfAux_ne_nil (by omega) l.length l

/-- Model of `iterInsertLines` equals the canonical filter. -/
theorem iterInsertLines_eq_filterSpec (file : List Nat) :
    iterInsertLines file = filterSpec file := by
  unfold iterInsertLines
  rw [iterChunks_eq_filterSpec _ [] chunksOf_ne_nil, List.nil_append,
    chunksOf_flatten (by omega)]

/-! ## Claim C2: streaming-filter correctness -/

/-- C2: for every input file, `iterInsertLines` yields exactly the lines
of the file that, after trimming surrounding whitespace, case-insensitively
begin with `INSERT INTO` (the canonical per-line filter `filterSpec`, which
splits the file on newlines, decodes each line with the UTF-8→Latin-1
fallback, trims it, and tests the upper-cased prefix), in file order —
including a final partial line; and the yielded sequence is identical for
every chunk size and indeed for every partition of the byte stream into
non-empty reads. -/
theorem c2_streaming_filter_correct (file : List Nat) :
    iterInsertLines file = filterSpec file ∧
    (∀ n : Nat, 0 < n → iterChunks [] (chunksOf n file) = filterSpec file) ∧
    (∀ chunks : List (List Nat), chunks.flatten = file →
      (∀ c ∈ chunks, c ≠ []) → iterChunks [] chunks = filterSpec file) := by
  refine ⟨iterInsertLines_eq_filterSpec file, fun n hn => ?_, fun chunks hf hc => ?_⟩
  · rw [iterChunks_eq_filterSpec _ [] chunksOf_ne_nil, List.nil_append,
      chunksOf_flatten hn]
  · rw [iterChunks_eq_filterSpec _ [] hc, List.nil_append, hf]

/-- Witness for C2 at a concrete file: 1-byte chunking and
whole-file-at-once chunking both equal the canonical filter. -/
theorem c2_streaming_filter_correct_witness :
    iterChunks []
        (chunksOf 1 (utf8Encode (strCps "INSERT INTO t VALUES (1);\nskip\n"))) =
      filterSpec (utf8Encode (strCps "INSERT INTO t VALUES (1);\nskip\n")) ∧
    iterChunks [] [utf8Encode (strCps "INSERT INTO t VALUES (1);\nskip\n")] =
      filterSpec (utf8Encode (strCps "INSERT INTO t VALUES (1);\nskip\n")) :=
  ⟨(c2_streaming_filter_correct _).2.1 1 (by decide),
   (c2_streaming_filter_correct _).2.2 _ (by decide) (by decide)⟩

/-! ## Claim C3: decode totality -/

theorem pyDecodeBytesE_eq {bs : List Nat} (h : ∀ x ∈ bs, x < 256) :
    pyDecodeBytesE bs = some (pyDecodeBytes bs) := by
  unfold pyDecodeBytesE pyDecodeBytes latin1Decode
  cases hd : utf8Decode bs with
  | some cs => rfl
  | none =>
    rw [if_pos (by simpa using h)]
    rfl

theorem mainLineE_eq {bs : List Nat} (h : ∀ x ∈ bs, x < 256) :
    mainLineE bs = some (mainLineF bs) := by
  unfold mainLineE mainLineF
  by_cases hs : stripBytes bs = []
  · simp [hs]
  · have hsub : ∀ x ∈ stripBytes bs, x < 256 :=
      fun x hx => h x (mem_of_mem_stripList hx)
    simp only [if_neg hs, pyDecodeBytesE_eq hsub, Option.map_some']

theorem eofLineE_eq {bs : List Nat} (h : ∀ x ∈ bs, x < 256) :
    eofLineE bs = some (eofLineF bs) := by
  unfold eofLineE eofLineF
  by_cases hs : stripBytes bs = []
  · simp [hs]
  · simp only [if_neg hs, pyDecodeBytesE_eq h, Option.map_some']

theorem seqFilterMap_eq {f : List Nat → Option (Option (List Nat))}
    {g : List Nat → Option (List Nat)} :
    ∀ {L : List (List Nat)}, (∀ s ∈ L, f s = some (g s)) →
      seqFilterMap f L = some (L.filterMap g) := by
  intro L
  induction L with
  | nil => intro _; rfl
  | cons s ss ih =>
    intro h
    simp only [seqFilterMap, h s (List.mem_cons_self s ss),
      ih (fun t ht => h t (List.mem_cons_of_mem s ht))]
    cases hg : g s <;> simp [List.filterMap_cons, hg]

theorem mem_of_mem_nlSegs {l s : List Nat} (hs : s ∈ nlSegs l) :
    ∀ b ∈ s, b ∈ l :=
  mem_of_mem_splitNl (by rw [splitNl_eq]; exact List.mem_append_left _ hs)

theorem mem_of_mem_nlRest {l : List Nat} : ∀ b ∈ nlRest l, b ∈ l :=
  mem_of_mem_splitNl (by rw [splitNl_eq]; simp)

theorem iterChunksE_eq :
    ∀ (chunks : List (List Nat)) (buffer : List Nat),
      (∀ x ∈ buffer, x < 256) → (∀ c ∈ chunks, ∀ x ∈ c, x < 256) →
      iterChunksE buffer chunks = some (iterChunks buffer chunks) := by
  intro chunks
  induction chunks with
  | nil =>
    intro buffer hb _
    simp only [iterChunksE, iterChunks]
    by_cases h : buffer = []
    · simp [h]
    · rw [if_neg h, if_neg h]
      exact seqFilterMap_eq fun s hs =>
        eofLineE_eq fun x hx => hb x (mem_of_mem_splitNl hs x hx)
  | cons c cs ih =>
    intro buffer hb hc
    by_cases h : c = []
    · simp only [iterChunksE, iterChunks, if_pos h]
      by_cases h2 : buffer = []
      · simp [h2]
      · rw [if_neg h2, if_neg h2]
        exact seqFilterMap_eq fun s hs =>
          eofLineE_eq fun x hx => hb x (mem_of_mem_splitNl hs x hx)
    · have hwhole : ∀ x ∈ buffer ++ c, x < 256 := by
        intro x hx
        rcases List.mem_append.mp hx with h1 | h1
        · exact hb x h1
        · exact hc c (List.mem_cons_self c cs) x h1
      simp only [iterChunksE, iterChunks, if_neg h]
      rw [seqFilterMap_eq (fun s hs =>
          mainLineE_eq fun x hx => hwhole x (mem_of_mem_nlSegs hs x hx)),
        ih (nlRest (buffer ++ c)) (fun x hx => hwhole x (mem_of_mem_nlRest x hx))
          (fun d hd x hx => hc d (List.mem_cons_of_mem c hd) x hx)]

theorem chunksOfAux_subset {n : Nat} :
    ∀ (fuel : Nat) (l c : List Nat), c ∈ chunksOfAux n fuel l → ∀ x ∈ c, x ∈ l := by
  intro fuel
  induction fuel with
  | zero =>
    intro l c hc
    rcases l with _ | ⟨b, rest⟩ <;> cases hc
  | succ f ih =>
    intro l c hc
    rcases l with _ | ⟨b, rest⟩
    · cases hc
    · simp only [chunksOfAux] at hc
      rcases List.mem_cons.mp hc with rfl | hc'
      · exact fun x hx => List.take_subset n _ hx
      · exact fun x hx => List.drop_subset n _ (ih _ c hc' x hx)

/-- C3: on any byte file — malformed UTF-8 included — the line filter
never raises: the exception-faithful pipeline `iterInsertLinesE`, in which
every decode failure is a visible `none` exactly where Python would raise
and Latin-1 is the terminal fallback, returns `some` of the total model's
result. -/
theorem c3_decode_totality (file : List Nat) (h : ∀ b ∈ file, b < 256) :
    iterInsertLinesE file = some (iterInsertLines file) := by
  unfold iterInsertLinesE iterInsertLines
  exact iterChunksE_eq _ [] (by simp) fun c hc x hx =>
    h x (by
      unfold chunksOf at hc
      by_cases hn : 65536 = 0
      · rw [if_pos hn] at hc
        cases hc
      · rw [if_neg hn] at hc
        exact chunksOfAux_subset file.length file c hc x hx)

/-- Witness for C3 at a concrete file made of malformed and truncated
UTF-8 sequences only. -/
theorem c3_decode_totality_witness :
    iterInsertLinesE [0xC3, 0x28, 0xFF, 0xFE, 10, 0xE2, 0x82] =
      some (iterInsertLines [0xC3, 0x28, 0xFF, 0xFE, 10, 0xE2, 0x82]) :=
  c3_decode_totality _ (by decide)

/-! ## Claim C1: split round-trip -/

theorem headerBytes_eq :
    headerBytes = (headerLines.map (· ++ [10])).flatten := by decide

theorem commitBytes_eq :
    commitBytes = (commitLines.map (· ++ [10])).flatten := by decide

theorem footerBytes_eq :
    footerBytes = (footerLines.map (· ++ [10])).flatten := by decide

theorem headerLines_no10 : ∀ s ∈ headerLines, 10 ∉ s := by decide

theorem commitLines_no10 : ∀ s ∈ commitLines, 10 ∉ s := by decide

theorem footerLines_no10 : ∀ s ∈ footerLines, 10 ∉ s := by decide

theorem headerLines_filterMap : headerLines.filterMap specLine = [] := by decide

theorem commitLines_filterMap : commitLines.filterMap specLine = [] := by decide

theorem footerLines_filterMap : footerLines.filterMap specLine = [] := by decide

theorem lineToBytes_eq {l : List Nat} (h : GoodLine l) :
    lineToBytes l = utf8Encode l ++ [10] := by
  obtain ⟨hstrip, hvalid, hins, h10⟩ := h
  have hw : withNl l = l ++ [10] := by
    unfold withNl
    rw [if_neg fun hlast => h10 (List.mem_of_getLast?_eq_some hlast)]
  have henc : pyEncodeUtf8 (l ++ [10]) = some (utf8Encode (l ++ [10])) := by
    unfold pyEncodeUtf8
    rw [if_pos]
    rw [List.all_eq_true]
    intro c hc
    rcases List.mem_append.mp hc with h1 | h1
    · exact decide_eq_true (hvalid c h1)
    · simp only [List.mem_singleton] at h1
      subst h1
      decide
  unfold lineToBytes
  rw [hw, henc, utf8Encode_append]
  rfl

theorem specLine_utf8Encode {l : List Nat} (h : GoodLine l) :
    specLine (utf8Encode l) = some l := by
  obtain ⟨hstrip, hvalid, hins, h10⟩ := h
  unfold specLine pyDecodeBytes
  rw [utf8Decode_utf8Encode hvalid]
  simp only [Option.getD_some]
  rw [show stripCps l = l from hstrip, if_pos hins]

theorem good_filterSpec {file : List Nat} (h : ∀ b ∈ file, b < 256) :
    ∀ l ∈ filterSpec file, GoodLine l := by
  intro l hl
  unfold filterSpec at hl
  obtain ⟨seg, hseg, hspec⟩ := List.mem_filterMap.mp hl
  have hsegsub : ∀ b ∈ seg, b ∈ file := mem_of_mem_splitNl hseg
  have hseg10 : 10 ∉ seg := splitNl_no10 file seg hseg
  have hl_eq : l = stripCps (pyDecodeBytes seg) ∧ isInsertLine l = true := by
    unfold specLine at hspec
    by_cases hi : isInsertLine (stripCps (pyDecodeBytes seg))
    · rw [if_pos hi] at hspec
      cases hspec
      exact ⟨rfl, hi⟩
    · rw [if_neg hi] at hspec
      cases hspec
  obtain ⟨rfl, hins⟩ := hl_eq
  refine ⟨stripList_idem _ _, ?_, hins, ?_⟩
  · intro c hc
    have hc' : c ∈ pyDecodeBytes seg := mem_of_mem_stripList hc
    unfold pyDecodeBytes at hc'
    cases hd : utf8Decode seg with
    | some cs =>
      rw [hd] at hc'
      exact (utf8Decode_some_props hd c hc').1
    | none =>
      rw [hd] at hc'
      have : c < 256 := h c (hsegsub c hc')
      exact ⟨by omega, by omega⟩
  · intro hc
    have hc' : 10 ∈ pyDecodeBytes seg := mem_of_mem_stripList hc
    unfold pyDecodeBytes at hc'
    cases hd : utf8Decode seg with
    | some cs =>
      rw [hd] at hc'
      exact hseg10 ((utf8Decode_some_props hd 10 hc').2 (by omega))
    | none =>
      rw [hd] at hc'
      exact hseg10 hc'

theorem partChunks_segs {ds cs : List (List Nat)} (hpc : PartChunks ds cs) :
    (∀ x ∈ ds, GoodLine x) →
    ∃ segs : List (List Nat), cs.flatten = (segs.map (· ++ [10])).flatten ∧
      (∀ s ∈ segs, 10 ∉ s) ∧ segs.filterMap specLine = ds := by
  induction hpc with
  | nil => exact fun _ => ⟨[], rfl, by simp, rfl⟩
  | line l hpc ih =>
    intro hg
    obtain ⟨segs, h1, h2, h3⟩ := ih fun x hx => hg x (List.mem_append_left _ hx)
    have hgl : GoodLine l := hg l (List.mem_append_right _ (List.mem_singleton_self l))
    refine ⟨segs ++ [utf8Encode l], ?_, ?_, ?_⟩
    · rw [List.flatten_append, List.map_append, List.flatten_append, h1,
        lineToBytes_eq hgl]
      simp
    · intro s hs
      rcases List.mem_append.mp hs with h4 | h4
      · exact h2 s h4
      · simp only [List.mem_singleton] at h4
        subst h4
        intro h10
        exact hgl.2.2.2 (mem_utf8Encode_lt h10 (by omega))
    · rw [List.filterMap_append, h3, List.filterMap_cons, specLine_utf8Encode hgl]
      rfl
  | commit hpc ih =>
    intro hg
    obtain ⟨segs, h1, h2, h3⟩ := ih hg
    refine ⟨segs ++ commitLines, ?_, ?_, ?_⟩
    · rw [List.flatten_append, List.map_append, List.flatten_append, h1,
        commitBytes_eq]
      simp
    · intro s hs
      rcases List.mem_append.mp hs with h4 | h4
      · exact h2 s h4
      · exact commitLines_no10 s h4
    · rw [List.filterMap_append, h3, commitLines_filterMap, List.append_nil]

theorem filterSpec_mkPart {ds cs : List (List Nat)} (hpc : PartChunks ds cs)
    (hgood : ∀ x ∈ ds, GoodLine x) : filterSpec (mkPart cs) = ds := by
  obtain ⟨segs, hflat, hno10, hfm⟩ := partChunks_segs hpc hgood
  unfold mkPart filterSpec
  rw [headerBytes_eq, footerBytes_eq, hflat, ← List.flatten_append,
    ← List.flatten_append, ← List.map_append, ← List.map_append,
    ← List.append_nil (((headerLines ++ segs ++ footerLines).map (· ++ [10])).flatten),
    splitNl_flatten_term _ _ ?hno]
  case hno =>
    intro s hs
    rcases List.mem_append.mp hs with h4 | h4
    · rcases List.mem_append.mp h4 with h5 | h5
      · exact headerLines_no10 s h5
      · exact hno10 s h5
    · exact footerLines_no10 s h4
  rw [List.filterMap_append, List.filterMap_append, List.filterMap_append,
    headerLines_filterMap, footerLines_filterMap, hfm]
  rw [show List.filterMap specLine (splitNl ([] : List Nat)) = [] from by decide]
  simp

theorem splitStep_eq_flush {eff : Int} {st : SplitSt} {l : List Nat}
    (h : (st.curSize + (lineToBytes l).length : Int) > eff ∧ st.curChunks ≠ []) :
    splitStep eff st l =
      ⟨st.parts ++ [mkPart st.curChunks], [lineToBytes l],
        (lineToBytes l).length, 1⟩ := by
  simp only [splitStep, if_pos h]
  rw [if_neg (by intro hcon; omega)]
  simp

theorem splitStep_eq_commit {eff : Int} {st : SplitSt} {l : List Nat}
    (hn : ¬((st.curSize + (lineToBytes l).length : Int) > eff ∧ st.curChunks ≠ []))
    (hc : (st.insertCount + 1) % 50 = 0) :
    splitStep eff st l =
      ⟨st.parts, (st.curChunks ++ [lineToBytes l]) ++ [commitBytes],
        st.curSize + (lineToBytes l).length + commitBytes.length,
        st.insertCount + 1⟩ := by
  simp only [splitStep, if_neg hn]
  rw [if_pos ⟨hc, by simp⟩]

theorem splitStep_eq_plain {eff : Int} {st : SplitSt} {l : List Nat}
    (hn : ¬((st.curSize + (lineToBytes l).length : Int) > eff ∧ st.curChunks ≠ []))
    (hc : ¬ (st.insertCount + 1) % 50 = 0) :
    splitStep eff st l =
      ⟨st.parts, st.curChunks ++ [lineToBytes l],
        st.curSize + (lineToBytes l).length, st.insertCount + 1⟩ := by
  simp only [splitStep, if_neg hn]
  rw [if_neg (by intro hcon; exact hc hcon.1)]

theorem splitStep_data (eff : Int) {processed : List (List Nat)} {st : SplitSt}
    {l : List Nat} (hInv : SplitDataInv processed st) (hg : GoodLine l) :
    SplitDataInv (processed ++ [l]) (splitStep eff st l) := by
  obtain ⟨cds, hproc, hpc, hcgood, hemp⟩ := hInv
  by_cases hflush : (st.curSize + (lineToBytes l).length : Int) > eff ∧ st.curChunks ≠ []
  · rw [splitStep_eq_flush hflush]
    refine ⟨[l], ?_, ?_, ?_, ?_⟩
    · rw [hproc]
      simp only [List.flatMap_append, List.flatMap_cons, List.flatMap_nil,
        List.append_nil, filterSpec_mkPart hpc hcgood, List.append_assoc]
    · have := PartChunks.line l PartChunks.nil
      simpa using this
    · intro x hx
      simp only [List.mem_singleton] at hx
      subst hx
      exact hg
    · intro hcc
      cases hcc
  · by_cases hc : (st.insertCount + 1) % 50 = 0
    · rw [splitStep_eq_commit hflush hc]
      refine ⟨cds ++ [l], by rw [hproc, List.append_assoc], ?_, ?_, ?_⟩
      · exact PartChunks.commit (PartChunks.line l hpc)
      · intro x hx
        rcases List.mem_append.mp hx with h1 | h1
        · exact hcgood x h1
        · simp only [List.mem_singleton] at h1
          subst h1
          exact hg
      · intro hcc
        simp at hcc
    · rw [splitStep_eq_plain hflush hc]
      refine ⟨cds ++ [l], by rw [hproc, List.append_assoc], ?_, ?_, ?_⟩
      · exact PartChunks.line l hpc
      · intro x hx
        rcases List.mem_append.mp hx with h1 | h1
        · exact hcgood x h1
        · simp only [List.mem_singleton] at h1
          subst h1
          exact hg
      · intro hcc
        simp at hcc

theorem foldl_splitStep_data (eff : Int) :
    ∀ (ls : List (List Nat)) (processed : List (List Nat)) (st : SplitSt),
      SplitDataInv processed st → (∀ x ∈ ls, GoodLine x) →
      SplitDataInv (processed ++ ls) (ls.foldl (splitStep eff) st) := by
  intro ls
  induction ls with
  | nil =>
    intro processed st h _
    simpa using h
  | cons l ls ih =>
    intro processed st h hg
    have h1 := splitStep_data eff h (hg l (List.mem_cons_self l ls))
    have h2 := ih (processed ++ [l]) _ h1
      (fun x hx => hg x (List.mem_cons_of_mem l hx))
    have h3 : processed ++ l :: ls = (processed ++ [l]) ++ ls := by simp
    rw [List.foldl_cons, h3]
    exact h2

/-- C1: running the INSERT-line filter over the part files produced by the
splitter, in part order, yields exactly the line sequence the filter
produces on the original file; the injected header, footer and
commit-checkpoint blocks contribute no lines. -/
theorem c1_split_roundtrip (fb : List Nat) (maxSize : Nat)
    (h : ∀ b ∈ fb, b < 256) :
    (splitLargeFile fb maxSize).flatMap iterInsertLines = iterInsertLines fb := by
  have hfun : iterInsertLines = filterSpec := funext iterInsertLines_eq_filterSpec
  rw [hfun]
  unfold splitLargeFile
  rw [hfun]
  have hGood : ∀ x ∈ filterSpec fb, GoodLine x := good_filterSpec h
  have hInit : SplitDataInv [] ⟨[], [], 0, 0⟩ :=
    ⟨[], rfl, PartChunks.nil, by simp, fun _ => rfl⟩
  have hInv := foldl_splitStep_data (effectiveMax maxSize)
    (filterSpec fb) [] _ hInit hGood
  rw [List.nil_append] at hInv
  set final := (filterSpec fb).foldl (splitStep (effectiveMax maxSize))
    ⟨[], [], 0, 0⟩ with hfinal
  obtain ⟨cds, hproc, hpc, hcgood, hemp⟩ := hInv
  by_cases hcc : final.curChunks ≠ []
  · simp only [if_pos hcc]
    rw [List.flatMap_append,
      show List.flatMap [mkPart final.curChunks] filterSpec =
        filterSpec (mkPart final.curChunks) from by simp,
      filterSpec_mkPart hpc hcgood, ← hproc]
  · simp only [if_neg hcc]
    push_neg at hcc
    rw [hemp hcc, List.append_nil] at hproc
    exact hproc.symm

/-- Witness for C1 at a concrete dump file and threshold. -/
theorem c1_split_roundtrip_witness :
    (splitLargeFile
        (utf8Encode (strCps "INSERT INTO a VALUES (1);\nnoise\nINSERT INTO b VALUES (2);\n"))
        250).flatMap iterInsertLines =
      iterInsertLines
        (utf8Encode (strCps "INSERT INTO a VALUES (1);\nnoise\nINSERT INTO b VALUES (2);\n")) :=
  c1_split_roundtrip _ 250 (by decide)

/-! ## Claim C4: threshold respected -/

theorem mkPart_length (cs : List (List Nat)) :
    (mkPart cs).length =
      headerBytes.length + cs.flatten.length + footerBytes.length := by
  simp [mkPart]
  omega

theorem splitStep_size {maxSize : Nat} {allLines : List (List Nat)}
    {st : SplitSt} {l : List Nat} (hInv : SplitSizeInv maxSize allLines st)
    (hl : l ∈ allLines) :
    SplitSizeInv maxSize allLines (splitStep (effectiveMax maxSize) st l) := by
  obtain ⟨hsz, hcnt, hbuf, hparts⟩ := hInv
  have heff : effectiveMax maxSize = (maxSize : Int) - headerBytes.length -
      footerBytes.length - commitBytes.length := rfl
  have hC : (0 : Int) ≤ commitBytes.length := by positivity
  by_cases hflush : (st.curSize + (lineToBytes l).length : Int) >
      effectiveMax maxSize ∧ st.curChunks ≠ []
  · rw [splitStep_eq_flush hflush]
    refine ⟨?_, ?_, ?_, ?_⟩ <;> dsimp only
    · simp
    · simp
    · intro _
      by_cases hL : ((lineToBytes l).length : Int) ≤ effectiveMax maxSize
      · left
        omega
      · right
        exact ⟨l, hl, rfl, by omega⟩
    · intro p hp
      rcases List.mem_append.mp hp with h1 | h1
      · exact hparts p h1
      · simp only [List.mem_singleton] at h1
        subst h1
        rcases hbuf hflush.2 with hle | ⟨l0, hmem, hcceq, hbig⟩
        · left
          have hmk := mkPart_length st.curChunks
          omega
        · right
          exact ⟨l0, hmem, by rw [hcceq], hbig⟩
  · by_cases hc : (st.insertCount + 1) % 50 = 0
    · have hccne : st.curChunks ≠ [] := by
        intro hnil
        have h0 : st.insertCount = 0 := hcnt hnil
        omega
      have hle : (st.curSize + (lineToBytes l).length : Int) ≤
          effectiveMax maxSize := by
        rcases not_and_or.mp hflush with h1 | h1
        · omega
        · exact absurd hccne (by simpa using h1)
      rw [splitStep_eq_commit hflush hc]
      refine ⟨?_, ?_, ?_, ?_⟩ <;> dsimp only
      · rw [hsz]
        simp [List.flatten_append]
        try omega
      · simp
      · intro _
        left
        omega
      · exact hparts
    · rw [splitStep_eq_plain hflush hc]
      refine ⟨?_, ?_, ?_, ?_⟩ <;> dsimp only
      · rw [hsz]
        simp [List.flatten_append]
        try omega
      · simp
      · intro _
        by_cases hccnil : st.curChunks = []
        · have h0 : st.curSize = 0 := by
            rw [hsz, hccnil]
            rfl
          by_cases hL : ((lineToBytes l).length : Int) ≤ effectiveMax maxSize
          · left
            omega
          · right
            exact ⟨l, hl, by rw [hccnil, List.nil_append], by omega⟩
        · have hle : (st.curSize + (lineToBytes l).length : Int) ≤
              effectiveMax maxSize := by
            rcases not_and_or.mp hflush with h1 | h1
            · omega
            · exact absurd hccnil (by simpa using h1)
          left
          omega
      · exact hparts

theorem foldl_splitStep_size {maxSize : Nat} {allLines : List (List Nat)} :
    ∀ (ls : List (List Nat)) (st : SplitSt),
      SplitSizeInv maxSize allLines st → (∀ x ∈ ls, x ∈ allLines) →
      SplitSizeInv maxSize allLines
        (ls.foldl (splitStep (effectiveMax maxSize)) st) := by
  intro ls
  induction ls with
  | nil => exact fun st h _ => h
  | cons l ls ih =>
    intro st h hmem
    rw [List.foldl_cons]
    exact ih _ (splitStep_size h (hmem l (List.mem_cons_self l ls)))
      fun x hx => hmem x (List.mem_cons_of_mem l hx)

/-- C4: every part file written by the splitter is at most the configured
maximum size (header and footer included; the accumulation budget is the
maximum minus header, footer and one reserved commit block), except that a
data-statement line exceeding the budget by itself is still written whole,
untruncated, as the sole data content of its own part. -/
theorem c4_threshold_respected (fb : List Nat) (maxSize : Nat) :
    ∀ part ∈ splitLargeFile fb maxSize,
      part.length ≤ maxSize ∨
      ∃ l ∈ iterInsertLines fb, part = mkPart [lineToBytes l] ∧
        ((lineToBytes l).length : Int) > effectiveMax maxSize := by
  intro part hp
  have heff : effectiveMax maxSize = (maxSize : Int) - headerBytes.length -
      footerBytes.length - commitBytes.length := rfl
  have hInit : SplitSizeInv maxSize (iterInsertLines fb) ⟨[], [], 0, 0⟩ :=
    ⟨rfl, fun _ => rfl, fun hne => absurd rfl hne, by simp⟩
  have hInv := foldl_splitStep_size (iterInsertLines fb) _ hInit fun x hx => hx
  obtain ⟨hsz, hcnt, hbuf, hparts⟩ := hInv
  unfold splitLargeFile at hp
  by_cases hcc : ((iterInsertLines fb).foldl (splitStep (effectiveMax maxSize))
      ⟨[], [], 0, 0⟩).curChunks ≠ []
  · rw [if_pos hcc] at hp
    rcases List.mem_append.mp hp with h1 | h1
    · exact hparts part h1
    · simp only [List.mem_singleton] at h1
      subst h1
      rcases hbuf hcc with hle | ⟨l0, hmem, hcceq, hbig⟩
      · left
        have := mkPart_length ((iterInsertLines fb).foldl
          (splitStep (effectiveMax maxSize)) ⟨[], [], 0, 0⟩).curChunks
        omega
      · right
        exact ⟨l0, hmem, by rw [hcceq], hbig⟩
  · rw [if_neg hcc] at hp
    exact hparts part hp

/-- Witness for C4: the single part produced for a small dump is within the
threshold. -/
theorem c4_threshold_respected_witness :
    ((splitLargeFile (utf8Encode (strCps "INSERT INTO a VALUES (1);\n")) 300).headD
        []).length ≤ 300 ∨
      ∃ l ∈ iterInsertLines (utf8Encode (strCps "INSERT INTO a VALUES (1);\n")),
        (splitLargeFile (utf8Encode (strCps "INSERT INTO a VALUES (1);\n")) 300).headD
            [] = mkPart [lineToBytes l] ∧
          ((lineToBytes l).length : Int) > effectiveMax 300 :=
  c4_threshold_respected _ 300 _ (by decide)

/-! ## Claims C5-C7: the per-table export worker -/

/-- C5 counterexample: a small dump of one INSERT line, far below the
threshold, is NOT left byte-identical by the worker — post-processing
rewrites it with the header/footer envelope. -/
theorem c5_small_file_changed_counterexample :
    (exportTableDataModel true 0 []
        (some (utf8Encode (strCps "INSERT INTO t VALUES (1);\n"))) 1000000).2.main ≠
      some (utf8Encode (strCps "INSERT INTO t VALUES (1);\n")) := by decide

/-- C5 (amended): for a small dump that contains at least one INSERT line
and does not exceed the threshold, the worker reports success with the
file's positive original byte size, leaves no temp or part files, and
installs the header/footer rewrite of the file (not its original bytes). -/
theorem c5_small_file_rewritten (fb : List Nat) (threshold : Nat)
    (exitCode : Int) (output : List String)
    (hins : iterInsertLines fb ≠ []) (hsize : ¬ threshold < fb.length) :
    exportTableDataModel true exitCode output (some fb) threshold =
      ({ success := true, sizeBytes := fb.length, error := none },
       { main := some ((rewriteBytesOpt fb).getD fb), tmp := none, parts := [] }) ∧
    0 < fb.length := by
  constructor
  · simp only [exportTableDataModel, Bool.not_true, Bool.false_eq_true,
      if_false, if_neg hins, if_neg hsize]
  · rcases fb with _ | ⟨b, rest⟩
    · exact absurd rfl hins
    · simp

/-- Witness for C5's amended statement at a concrete small dump. -/
theorem c5_small_file_rewritten_witness :
    exportTableDataModel true 0 []
        (some (utf8Encode (strCps "INSERT INTO t VALUES (1);\n"))) 1000000 =
      ({ success := true,
         sizeBytes := (utf8Encode (strCps "INSERT INTO t VALUES (1);\n")).length,
         error := none },
       { main := some ((rewriteBytesOpt
             (utf8Encode (strCps "INSERT INTO t VALUES (1);\n"))).getD
           (utf8Encode (strCps "INSERT INTO t VALUES (1);\n"))),
         tmp := none, parts := [] }) ∧
    0 < (utf8Encode (strCps "INSERT INTO t VALUES (1);\n")).length :=
  c5_small_file_rewritten _ 1000000 0 [] (by decide) (by decide)

/-- C6: a dump with zero INSERT lines is a successful no-op — the worker
deletes the file and reports success with size zero, leaving no file on
disk.  The model is a pure function of the dump outcome, so repeating the
export with the same outcome yields the identical record. -/
theorem c6_empty_table_noop (fb : List Nat) (threshold : Nat)
    (exitCode : Int) (output : List String)
    (hins : iterInsertLines fb = []) :
    exportTableDataModel true exitCode output (some fb) threshold =
      ({ success := true, sizeBytes := 0, error := none },
       { main := none, tmp := none, parts := [] }) := by
  simp only [exportTableDataModel, Bool.not_true, Bool.false_eq_true, if_false,
    if_pos hins]

/-- Witness for C6 at a concrete dump with no INSERT line. -/
theorem c6_empty_table_noop_witness :
    exportTableDataModel true 0 []
        (some (utf8Encode (strCps "-- table had no rows\n"))) 500 =
      ({ success := true, sizeBytes := 0, error := none },
       { main := none, tmp := none, parts := [] }) :=
  c6_empty_table_noop _ 500 0 [] (by decide)

/-- C7 counterexample: with the dump subprocess failing with exit code 2
and captured stderr `Access denied`, the worker's error text is the
exit-code message only — it does not contain the captured text. -/
theorem c7_error_text_counterexample :
    (exportTableDataModel false 2 ["Access denied"] (some [65]) 1000).1.error =
      some (exportErrorMsg 2) ∧
    ¬ List.IsInfix ("Access denied".data) ((exportErrorMsg 2).data) := by
  constructor
  · rfl
  · decide

/-- C7 (amended): on any subprocess failure the worker reports failure
with the error text naming the exit code (the captured output is logged
but not included), and deletes the partial output file, leaving no main,
temp or part file on disk. -/
theorem c7_export_failure_cleanup (exitCode : Int) (output : List String)
    (fileAfter : Option (List Nat)) (threshold : Nat) :
    exportTableDataModel false exitCode output fileAfter threshold =
      ({ success := false, sizeBytes := 0, error := some (exportErrorMsg exitCode) },
       { main := none, tmp := none, parts := [] }) := rfl

/-! ## Claim C8: structure-export failure aborts the database -/

/-- C8: when the structure export fails, the database is marked failed
after the structure-export phase alone — the data-export and data-import
phases are never invoked — and in the batch loop every database's result
is computed from its own job, independent of the others. -/
theorem c8_structure_failure_aborts (tables : List String)
    (tableOk : String → Bool) (importResult : Bool × List Phase) :
    processSingleDatabaseModel true false tables tableOk importResult =
      (DbStatus.failed, [Phase.structureExport]) ∧
    Phase.dataExport ∉
      (processSingleDatabaseModel true false tables tableOk importResult).2 ∧
    Phase.dataImport ∉
      (processSingleDatabaseModel true false tables tableOk importResult).2 ∧
    ∀ (doExport : Bool) (jobs : List DbJob) (i : Nat),
      (processBatch doExport jobs).get? i = (jobs.get? i).map fun j =>
        processSingleDatabaseModel doExport j.structureOk j.tables j.tableOk
          j.importResult := by
  have he : processSingleDatabaseModel true false tables tableOk importResult =
      (DbStatus.failed, [Phase.structureExport]) := rfl
  refine ⟨he, ?_, ?_, fun doExport jobs i => ?_⟩
  · rw [he]
    decide
  · rw [he]
    decide
  · simp [processBatch]

/-! ## Claim C9: structure import precedes data import -/

/-- C9: a restore run imports the structure file first and synchronously:
a missing structure file yields `false` with no import action at all; a
failed structure import yields `false` with no data file touched; and
after a successful structure import the files handed to the concurrent
pool are exactly the collected data files — the lexically sorted non-empty
`.sql` files of the per-database folder — queued after the structure
import. -/
theorem c9_structure_import_first (structureImportOk dataFolderExists : Bool)
    (names : List String) (size : String → Nat) (fileOk : String → Bool) :
    restoreDbModel false structureImportOk dataFolderExists names size fileOk =
      (false, []) ∧
    restoreDbModel true false dataFolderExists names size fileOk =
      (false, [RAction.structureFile]) ∧
    (restoreDbModel true true true names size fileOk).2 =
      RAction.structureFile :: (collectDataFiles names size).map RAction.dataFile ∧
    List.Pairwise (· ≤ ·) (collectDataFiles names size) ∧
    (∀ n : String, n ∈ collectDataFiles names size ↔
      n ∈ names ∧ n.endsWith ".sql" = true ∧ 0 < size n) := by
  refine ⟨rfl, rfl, ?_, ?_, ?_⟩
  · simp only [restoreDbModel, Bool.not_true, Bool.false_eq_true, if_false]
    by_cases h : (collectDataFiles names size).isEmpty
    · rw [if_pos h]
      rw [List.isEmpty_iff] at h
      rw [h]
      rfl
    · rw [if_neg h]
  · exact List.Pairwise.filter _
      (List.sorted_insertionSort (· ≤ ·) names)
  · intro n
    unfold collectDataFiles sortStrings
    rw [List.mem_filter, (List.perm_insertionSort (· ≤ ·) names).mem_iff]
    simp only [Bool.and_eq_true, decide_eq_true_eq]

/-! ## Claim C10: header/footer rewrite atomicity -/

/-- C10: whenever the rewriter fails (returns `false`) — during line
collection, while writing the temp file, or at the final replace — the
original file's bytes are unchanged and the temp file has been removed;
the original is replaced only atomically on success. -/
theorem c10_rewrite_atomicity (fb : List Nat) (fail : Option RewriteFail)
    (h : (addHeaderFooterFs fb fail).1 = false) :
    (addHeaderFooterFs fb fail).2.orig = fb ∧
    (addHeaderFooterFs fb fail).2.tmp = none := by
  cases fail with
  | none =>
    unfold addHeaderFooterFs at h ⊢
    cases hrw : rewriteBytesOpt fb with
    | some c =>
      rw [hrw] at h
      simp at h
    | none =>
      simp [exceptHandler]
  | some f =>
    cases f with
    | collect => exact ⟨rfl, rfl⟩
    | write written => exact ⟨rfl, rfl⟩
    | replace =>
      unfold addHeaderFooterFs exceptHandler
      cases hrw : rewriteBytesOpt fb <;> simp [hrw]

/-- Witness for C10 at a concrete failing invocation. -/
theorem c10_rewrite_atomicity_witness :
    (addHeaderFooterFs [65, 66] (some (RewriteFail.write [1, 2]))).2.orig =
        [65, 66] ∧
    (addHeaderFooterFs [65, 66] (some (RewriteFail.write [1, 2]))).2.tmp = none :=
  c10_rewrite_atomicity [65, 66] _ (by decide)

end MysqlProcessor
